import Mathlib

/-! # Multithreaded job system: the coordinator `JobSystem`

A shallow embedding of `src/JobSystem/jobsystem.cpp` and
`src/JobSystem/jobworkerthread.cpp`.  Every member function is a function on an
explicit `JobSystem` state; one call is one atomic step (the locks of the source
make each call a critical section, so the sequential reading of a body is the
behaviour of the call when no other thread interleaves with it).

* `std::deque<Job*>` and `std::vector<...>` are lists, front first.
* A `Job*` is modelled by the record of the three fields the coordinator reads
  through it; comparing two pointers is comparing the records.
* `std::vector::operator[]` past the end and a call through a null pointer have
  no defined behaviour in C++; the embedding reports them as a `Fault`.  An access
  `m_jobHistory[id]` is embedded for `0 ≤ id < size()`, where embedding and
  program agree; past `size()` a run of the program reaches the storage that line
  12 reserves, which the table of the embedding does not hold.  What a call does
  when it writes the table is therefore stated for an index inside the table, and
  `FinishJob`, which reads before it does anything else, is also embedded with
  the outcome of a read outside the table as a parameter.
* The virtual calls `Execute` and `JobCompleteCallback`, `delete` and the
  diagnostics written to `std::cout` are recorded as `Event`s, in program order;
  their bodies belong to the job payloads and are taken not to touch the
  coordinator.  A call that faults reports the events it emitted before.
* A worker thread is the record of its fields; its loop is read for a worker whose
  fields no other thread writes meanwhile.  The worker registry is a list, and
  what `CreateWorkerThread` and `DestroyWorkerThread` do to a thread is recorded
  as `WorkerEvent`s.
* The `lock()`/`unlock()` calls of the functions that nest mutexes are transcribed
  as lists of `LockAction`s, one per path through the function.
-/

/-! ## Data model -/

/-- Modelled from the spec: the enumeration `JobStatus` of `jobsystem.h`, which is
not among the sources; §3 lists its values in this order. -/
inductive JobStatus
  | JOB_STATUS_NEVER_SEEN
  | JOB_STATUS_QUEUED
  | JOB_STATUS_RUNNING
  | JOB_STATUS_COMPLETED
  | JOB_STATUS_RETIRED
  deriving DecidableEq, Repr

/-- Modelled from the spec: the record `JobHistoryEntry` of `jobsystem.h`, built in
`QueueJob` as `JobHistoryEntry(job->m_jobType, JOB_STATUS_QUEUED)`. -/
structure JobHistoryEntry where
  m_jobType : Int
  m_jobStatus : JobStatus
  deriving DecidableEq, Repr

/-- Modelled from the spec: the fields of `Job` (`job.h`, not among the sources) that
the coordinator reads: `m_jobID` (an `int`), `m_jobChannels` (an `unsigned long`)
and `m_jobType` (an `int`). -/
structure Job where
  m_jobID : Int
  m_jobChannels : Nat
  m_jobType : Int
  deriving DecidableEq, Repr

/-- The fields of `JobWorkerThread` set by its constructor and by `ShutDown`. -/
structure JobWorkerThread where
  m_uniqueName : String
  m_workerJobChannels : Nat
  m_isStopping : Bool
  deriving DecidableEq, Repr

/-- The members of `JobSystem` that `jobsystem.cpp` reads and writes. -/
structure JobSystem where
  m_workerThreads : List JobWorkerThread
  m_jobHistory : List JobHistoryEntry
  m_jobsQueued : List Job
  m_jobsRunning : List Job
  m_jobsCompleted : List Job
  totalJobs : Int
  deriving DecidableEq, Repr

/-- Ways in which a call leaves defined behaviour.  `fuelExhausted` is not a
behaviour of the program: it marks a loop of the embedding that was cut off. -/
inductive Fault
  | outOfBounds
  | nullDeref
  | fuelExhausted
  deriving DecidableEq, Repr

/-- What a call does besides changing the members of `JobSystem`. -/
inductive Event
  | execute (job : Job)
  | jobCompleteCallback (job : Job)
  | deleteJob (job : Job)
  | errorNoSuchJob (jobID : Int)
  | errorNotInCompletedList (jobID : Int)
  deriving DecidableEq, Repr

deriving instance DecidableEq for Except

/-- The state built by `JobSystem::JobSystem()`: `reserve` changes no size. -/
def emptySystem : JobSystem :=
  { m_workerThreads := [], m_jobHistory := [], m_jobsQueued := [],
    m_jobsRunning := [], m_jobsCompleted := [], totalJobs := 0 }

/-! ## Building blocks of the member functions -/

/-- The conversion `(int)n` of a `size_t`: reduction modulo `2^32` into
`[-2^31, 2^31)`. -/
def castInt (n : Nat) : Int :=
  if n % 2 ^ 32 < 2 ^ 31 then ((n % 2 ^ 32 : Nat) : Int)
  else ((n % 2 ^ 32 : Nat) : Int) - 2 ^ 32

/-- The read `m_jobHistory[jobID]`: defined only for `0 ≤ jobID < size()`.  Outside
that range `operator[]` checks nothing and the program goes on with whatever the
storage behind the table holds; the embedding has no value to give and stops. -/
def historyAt (h : List JobHistoryEntry) (jobID : Int) : Except Fault JobHistoryEntry :=
  if 0 ≤ jobID then
    match h[jobID.toNat]? with
    | some e => .ok e
    | none => .error .outOfBounds
  else .error .outOfBounds

/-- The write `m_jobHistory[jobID].m_jobStatus = st`, for `0 ≤ jobID < size()`.
Outside that range the write changes no entry of the table (it lands behind it,
in the storage reserved in line 12 as long as `jobID` is below 256*1024); the
embedding stops there, so that a call which returns in the embedding has written
inside the table. -/
def setJobStatus (h : List JobHistoryEntry) (jobID : Int) (st : JobStatus) :
    Except Fault (List JobHistoryEntry) :=
  match historyAt h jobID with
  | .ok e => .ok (h.set jobID.toNat { e with m_jobStatus := st })
  | .error f => .error f

/-- The scan `for (it = c.begin(); it != c.end(); ++it) if (p(*it)) { c.erase(it); break; }`:
the first element satisfying `p` together with the container without it, or
`none` when the loop runs to `end()`. -/
def extractFirst {α : Type} (p : α → Bool) : List α → Option (α × List α)
  | [] => none
  | x :: xs =>
    if p x then some (x, xs)
    else
      match extractFirst p xs with
      | some (y, ys) => some (y, x :: ys)
      | none => none

/-! ## Member functions of `JobSystem` -/

/-- `JobSystem::QueueJob`, lines 89-98. -/
def JobSystem.QueueJob (s : JobSystem) (job : Job) : JobSystem :=
  { s with
    m_jobHistory := s.m_jobHistory ++ [⟨job.m_jobType, .JOB_STATUS_QUEUED⟩],
    m_jobsQueued := s.m_jobsQueued ++ [job] }

/-- `JobSystem::GetJobStatus`, lines 100-114.  The condition
`(jobID, (int)m_jobHistory.size())` is a comma expression: its value is the
converted size, and it holds when that is not zero. -/
def JobSystem.GetJobStatus (s : JobSystem) (jobID : Int) : Except Fault JobStatus :=
  if castInt s.m_jobHistory.length ≠ 0 then
    match historyAt s.m_jobHistory jobID with
    | .ok e => .ok e.m_jobStatus
    | .error f => .error f
  else .ok .JOB_STATUS_NEVER_SEEN

/-- `JobSystem::isJobComplete`, lines 116-119. -/
def JobSystem.isJobComplete (s : JobSystem) (jobID : Int) : Except Fault Bool :=
  match s.GetJobStatus jobID with
  | .ok st => .ok (decide (st = .JOB_STATUS_COMPLETED))
  | .error f => .error f

/-- The range-for of `FinishCompletedJobs`, lines 128-134, over the local deque. -/
def finishCompletedLoop :
    List Job → JobSystem → List Event → Except (Fault × List Event) (JobSystem × List Event)
  | [], s, ev => .ok (s, ev)
  | job :: rest, s, ev =>
    match setJobStatus s.m_jobHistory job.m_jobID .JOB_STATUS_RETIRED with
    | .ok h =>
      finishCompletedLoop rest { s with m_jobHistory := h } (ev ++ [.jobCompleteCallback job])
    | .error f => .error (f, ev ++ [.jobCompleteCallback job])

/-- `JobSystem::FinishCompletedJobs`, lines 121-135: the swap leaves
`m_jobsCompleted` empty and the local deque holding its old contents. -/
def JobSystem.FinishCompletedJobs (s : JobSystem) :
    Except (Fault × List Event) (JobSystem × List Event) :=
  finishCompletedLoop s.m_jobsCompleted { s with m_jobsCompleted := [] } []

/-- The `while` loop of `JobSystem::FinishJob`, lines 139-176; `fuel` bounds the
number of evaluations of the loop condition.  When the scan of lines 152-161
finds nothing, line 166 prints and line 169 calls through the null pointer. -/
def finishJobLoop :
    Nat → JobSystem → Int → List Event → Except (Fault × List Event) (JobSystem × List Event)
  | 0, _, _, ev => .error (.fuelExhausted, ev)
  | fuel + 1, s, jobID, ev =>
    match s.isJobComplete jobID with
    | .error f => .error (f, ev)
    | .ok true => .ok (s, ev)
    | .ok false =>
      match s.GetJobStatus jobID with
      | .error f => .error (f, ev)
      | .ok jobStatus =>
        if jobStatus = .JOB_STATUS_NEVER_SEEN ∨ jobStatus = .JOB_STATUS_RETIRED then
          .ok (s, ev ++ [.errorNoSuchJob jobID])
        else
          match extractFirst (fun someCompletedJob => decide (someCompletedJob.m_jobID = jobID))
              s.m_jobsCompleted with
          | none => .error (.nullDeref, ev ++ [.errorNotInCompletedList jobID])
          | some (thisCompletedJob, rest) =>
            match setJobStatus s.m_jobHistory thisCompletedJob.m_jobID .JOB_STATUS_RETIRED with
            | .error f => .error (f, ev ++ [.jobCompleteCallback thisCompletedJob])
            | .ok h =>
              finishJobLoop fuel { s with m_jobsCompleted := rest, m_jobHistory := h } jobID
                (ev ++ [.jobCompleteCallback thisCompletedJob, .deleteJob thisCompletedJob])

/-- `JobSystem::FinishJob`, lines 137-177.  Two evaluations of the loop condition
always suffice (`finishJobLoop_fuel`). -/
def JobSystem.FinishJob (s : JobSystem) (jobID : Int) :
    Except (Fault × List Event) (JobSystem × List Event) :=
  finishJobLoop 2 s jobID []

/-- `JobSystem::OnJobCompleted`, lines 179-201. -/
def JobSystem.OnJobCompleted (s : JobSystem) (jobJustExecuted : Job) : Except Fault JobSystem :=
  let s1 := { s with totalJobs := s.totalJobs + 1 }
  match extractFirst (fun running => decide (jobJustExecuted = running)) s1.m_jobsRunning with
  | some (_, rest) =>
    match setJobStatus s1.m_jobHistory jobJustExecuted.m_jobID .JOB_STATUS_COMPLETED with
    | .ok h =>
      .ok { s1 with
            m_jobsRunning := rest,
            m_jobsCompleted := s1.m_jobsCompleted ++ [jobJustExecuted],
            m_jobHistory := h }
    | .error f => .error f
  | none => .ok s1

/-- `JobSystem::ClaimAJob`, lines 203-232. -/
def JobSystem.ClaimAJob (s : JobSystem) (workerJobChannels : Nat) :
    Except Fault (JobSystem × Option Job) :=
  match extractFirst (fun queuedJob => decide (queuedJob.m_jobChannels &&& workerJobChannels ≠ 0))
      s.m_jobsQueued with
  | some (claimedJob, rest) =>
    match setJobStatus s.m_jobHistory claimedJob.m_jobID .JOB_STATUS_RUNNING with
    | .ok h =>
      .ok ({ s with
             m_jobsQueued := rest,
             m_jobsRunning := s.m_jobsRunning ++ [claimedJob],
             m_jobHistory := h }, some claimedJob)
    | .error f => .error f
  | none => .ok (s, none)

/-! ## The coordinator as a transition system -/

/-- The calls a client or a worker can make on the coordinator. -/
inductive Op
  | queueJob (job : Job)
  | claimAJob (workerJobChannels : Nat)
  | onJobCompleted (job : Job)
  | finishCompletedJobs
  | finishJob (jobID : Int)
  deriving DecidableEq, Repr

/-- The state a call leaves behind when it returns. -/
def JobSystem.step (s : JobSystem) : Op → Option JobSystem
  | .queueJob job => some (s.QueueJob job)
  | .claimAJob w =>
    match s.ClaimAJob w with
    | .ok (s', _) => some s'
    | .error _ => none
  | .onJobCompleted job =>
    match s.OnJobCompleted job with
    | .ok s' => some s'
    | .error _ => none
  | .finishCompletedJobs =>
    match s.FinishCompletedJobs with
    | .ok (s', _) => some s'
    | .error _ => none
  | .finishJob jobID =>
    match s.FinishJob jobID with
    | .ok (s', _) => some s'
    | .error _ => none

/-- A submission is in sequence when the job is the next one: its id is the
number of jobs submitted so far, and fits the `int` it is stored in. -/
def Op.inSequence (s : JobSystem) : Op → Prop
  | .queueJob job => job.m_jobID = s.m_jobHistory.length ∧ job.m_jobID < 2 ^ 31
  | _ => True

instance Op.inSequence.decidable (s : JobSystem) (op : Op) : Decidable (op.inSequence s) := by
  cases op <;> unfold Op.inSequence <;> infer_instance

/-- The states the coordinator goes through, from the empty system, when every
submission is in sequence. -/
inductive Reachable : JobSystem → Prop
  | init : Reachable emptySystem
  | step {s s' : JobSystem} (op : Op) :
      Reachable s → op.inSequence s → s.step op = some s' → Reachable s'

/-- The position of a status in the life cycle of §3. -/
def JobStatus.rank : JobStatus → Nat
  | .JOB_STATUS_NEVER_SEEN => 0
  | .JOB_STATUS_QUEUED => 1
  | .JOB_STATUS_RUNNING => 2
  | .JOB_STATUS_COMPLETED => 3
  | .JOB_STATUS_RETIRED => 4

/-! ## The status/collection invariant -/

/-- The ids of the jobs a collection holds, in order. -/
def jobIDs (l : List Job) : List Int := l.map Job.m_jobID

/-- The history table has an entry for id `i`, and its status is `st`. -/
def recordsStatus (h : List JobHistoryEntry) (i : Int) (st : JobStatus) : Prop :=
  ∃ e, historyAt h i = .ok e ∧ e.m_jobStatus = st

instance recordsStatus.decidable (h : List JobHistoryEntry) (i : Int) (st : JobStatus) :
    Decidable (recordsStatus h i st) :=
  match hh : historyAt h i with
  | .ok e =>
    if hs : e.m_jobStatus = st then isTrue ⟨e, hh, hs⟩
    else isFalse (fun ⟨e', he', hs'⟩ => by rw [hh] at he'; cases he'; exact hs hs')
  | .error _ => isFalse (fun ⟨e', he', _⟩ => by rw [hh] at he'; cases he')

/-- The invariant of §3: no collection holds two jobs of one id, and the ids held
by queued, running and completed are exactly the ids recorded as QUEUED, RUNNING
and COMPLETED. -/
structure JobSystem.Consistent (s : JobSystem) : Prop where
  nodupQueued : (jobIDs s.m_jobsQueued).Nodup
  nodupRunning : (jobIDs s.m_jobsRunning).Nodup
  nodupCompleted : (jobIDs s.m_jobsCompleted).Nodup
  queued : ∀ i, i ∈ jobIDs s.m_jobsQueued ↔ recordsStatus s.m_jobHistory i .JOB_STATUS_QUEUED
  running : ∀ i, i ∈ jobIDs s.m_jobsRunning ↔ recordsStatus s.m_jobHistory i .JOB_STATUS_RUNNING
  completed :
    ∀ i, i ∈ jobIDs s.m_jobsCompleted ↔ recordsStatus s.m_jobHistory i .JOB_STATUS_COMPLETED

/-! ## Runs of the coordinator -/

/-- The state after a sequence of calls, each made when the one before has
returned; `none` as soon as one of them faults. -/
def JobSystem.runOps : JobSystem → List Op → Option JobSystem
  | s, [] => some s
  | s, op :: ops =>
    match s.step op with
    | some s' => s'.runOps ops
    | none => none

/-- The jobs handed to `QueueJob` in a sequence of calls, in order. -/
def submittedJobs : List Op → List Job
  | [] => []
  | .queueJob job :: ops => job :: submittedJobs ops
  | _ :: ops => submittedJobs ops

/-- The jobs returned by the `ClaimAJob` calls of a sequence of calls made from
state `s`, in order, up to the first call that faults. -/
def claimedJobs : JobSystem → List Op → List Job
  | _, [] => []
  | s, .claimAJob w :: ops =>
    match s.ClaimAJob w with
    | .ok (s', some job) => job :: claimedJobs s' ops
    | .ok (s', none) => claimedJobs s' ops
    | .error _ => []
  | s, op :: ops =>
    match s.step op with
    | some s' => claimedJobs s' ops
    | none => []

/-- What a call does, as its caller and the job payloads see it: the state it
leaves and the events it emits.  Lines 89-98 make no call through the job
pointer, and neither do lines 179-232. -/
def JobSystem.perform (s : JobSystem) :
    Op → Except (Fault × List Event) (JobSystem × List Event)
  | .queueJob job => .ok (s.QueueJob job, [])
  | .claimAJob w =>
    match s.ClaimAJob w with
    | .ok (s', _) => .ok (s', [])
    | .error f => .error (f, [])
  | .onJobCompleted job =>
    match s.OnJobCompleted job with
    | .ok s' => .ok (s', [])
    | .error f => .error (f, [])
  | .finishCompletedJobs => s.FinishCompletedJobs
  | .finishJob jobID => s.FinishJob jobID

/-- The mask of an `unsigned long` of `width` bits whose bits are all set. -/
def allBitsSet (width : Nat) : Nat := 2 ^ width - 1

/-! ## Worker threads -/

/-- `JobWorkerThread::ShutDown`, lines 42-47. -/
def JobWorkerThread.ShutDown (wk : JobWorkerThread) : JobWorkerThread :=
  { wk with m_isStopping := true }

/-- `JobWorkerThread::SetWorkerJobChannels`, lines 57-62. -/
def JobWorkerThread.SetWorkerJobChannels (wk : JobWorkerThread) (workerJobChannels : Nat) :
    JobWorkerThread :=
  { wk with m_workerJobChannels := workerJobChannels }

/-- The calls that write a field of a worker after its construction. -/
inductive WorkerOp
  | shutDown
  | setWorkerJobChannels (workerJobChannels : Nat)
  deriving DecidableEq, Repr

/-- The worker after one of these calls. -/
def JobWorkerThread.apply (wk : JobWorkerThread) : WorkerOp → JobWorkerThread
  | .shutDown => wk.ShutDown
  | .setWorkerJobChannels w => wk.SetWorkerJobChannels w

/-- What the registry calls do to a worker thread. -/
inductive WorkerEvent
  | startUp (worker : JobWorkerThread)
  | shutDown (worker : JobWorkerThread)
  | deleted (worker : JobWorkerThread)
  deriving DecidableEq, Repr

/-- `JobSystem::CreateWorkerThread`, lines 54-63.  Modelled from the spec: a new
worker is not stopping (§4.3, CREATED); the header that initialises
`m_isStopping` is not among the sources. -/
def JobSystem.CreateWorkerThread (s : JobSystem) (uniqueName : String)
    (workerJobChannels : Nat) : JobSystem × List WorkerEvent :=
  let newWorker : JobWorkerThread := ⟨uniqueName, workerJobChannels, false⟩
  ({ s with m_workerThreads := s.m_workerThreads ++ [newWorker] }, [.startUp newWorker])

/-- `JobSystem::DestroyWorkerThread`, lines 65-87; `strcmp(...) == 0` is equality of
the names. -/
def JobSystem.DestroyWorkerThread (s : JobSystem) (uniqueName : String) :
    JobSystem × List WorkerEvent :=
  match extractFirst (fun worker => decide (worker.m_uniqueName = uniqueName))
      s.m_workerThreads with
  | some (doomedWorker, rest) =>
    ({ s with m_workerThreads := rest }, [.shutDown doomedWorker, .deleted doomedWorker])
  | none => (s, [])

/-! ## The lock protocol -/

/-- The four mutexes that guard the job state. -/
inductive Lock
  | queued
  | running
  | completed
  | history
  deriving DecidableEq, Repr

/-- A call of `lock()` or `unlock()` on one of them. -/
inductive LockAction
  | lock (m : Lock)
  | unlock (m : Lock)
  deriving DecidableEq, Repr

/-- The `lock()`/`unlock()` calls of `QueueJob`, lines 91-97, in program order. -/
def QueueJobLocks : List LockAction :=
  [.lock .queued, .lock .history, .unlock .history, .unlock .queued]

/-- The `lock()`/`unlock()` calls of `ClaimAJob`, lines 205-229, in program order:
the history mutex is taken only when the scan finds a job. -/
def ClaimAJobLocks (s : JobSystem) (workerJobChannels : Nat) : List LockAction :=
  [.lock .queued, .lock .running] ++
    (match extractFirst (fun queuedJob => decide (queuedJob.m_jobChannels &&& workerJobChannels ≠ 0))
        s.m_jobsQueued with
    | some _ => [.lock .history, .unlock .history]
    | none => []) ++
    [.unlock .running, .unlock .queued]

/-- The `lock()`/`unlock()` calls of `OnJobCompleted`, lines 182-200, in program
order: the history mutex is taken only when the scan finds the job. -/
def OnJobCompletedLocks (s : JobSystem) (jobJustExecuted : Job) : List LockAction :=
  [.lock .completed, .lock .running] ++
    (match extractFirst (fun running => decide (jobJustExecuted = running)) s.m_jobsRunning with
    | some _ => [.lock .history, .unlock .history]
    | none => []) ++
    [.unlock .completed, .unlock .running]

/-- The order of §5: queued, running, completed, history. -/
def specLockOrder : Lock → Nat
  | .queued => 0
  | .running => 1
  | .completed => 2
  | .history => 3

/-- The order queued, completed, running, history. -/
def codeLockOrder : Lock → Nat
  | .queued => 0
  | .completed => 1
  | .running => 2
  | .history => 3

/-- Whether a sequence of lock actions, started while holding `held`, never takes a
mutex that does not come strictly later in `order` than every mutex held. -/
def respectsOrder (order : Lock → Nat) : List Lock → List LockAction → Bool
  | _, [] => true
  | held, .lock m :: rest =>
    held.all (fun h => decide (order h < order m)) && respectsOrder order (m :: held) rest
  | held, .unlock m :: rest => respectsOrder order (held.erase m) rest

/-- The largest number of mutexes a sequence of lock actions holds at a time. -/
def maxHeld : List Lock → List LockAction → Nat
  | held, [] => held.length
  | held, .lock m :: rest => max held.length (maxHeld (m :: held) rest)
  | held, .unlock m :: rest => max held.length (maxHeld (held.erase m) rest)

/-! ## `FinishJob` when the status is read outside the recorded range

`FinishJob` asks for the status of its argument before anything else (line 139),
and line 108 reads `m_jobHistory[jobID]` after a test (line 106) whose outcome
does not depend on `jobID`.  For an id outside `0 ≤ jobID < size()` the read
yields what the storage behind the table holds at that place, or faults.  The
definitions of this section take that outcome as the parameter `pastEnd`:
`some st` when the read yields the status `st`, `none` when it faults.  (A value
that is none of the five enumerators goes through `FinishJob` as QUEUED and
RUNNING do: the function compares the status with COMPLETED, NEVER_SEEN and
RETIRED only.)  For an id inside the range the definitions are `GetJobStatus`,
`isJobComplete` and `FinishJob` as embedded above, and so they are for every id
when `pastEnd` is `none` everywhere (`FinishJobReading_nothingPastEnd`). -/

/-- `JobSystem::GetJobStatus`, lines 100-114, the read of line 108 having the
outcome `pastEnd jobID` when `jobID` is outside the recorded range. -/
def JobSystem.GetJobStatusReading (s : JobSystem) (pastEnd : Int → Option JobStatus)
    (jobID : Int) : Except Fault JobStatus :=
  if castInt s.m_jobHistory.length ≠ 0 then
    match historyAt s.m_jobHistory jobID with
    | .ok e => .ok e.m_jobStatus
    | .error f =>
      match pastEnd jobID with
      | some st => .ok st
      | none => .error f
  else .ok .JOB_STATUS_NEVER_SEEN

/-- `JobSystem::isJobComplete`, lines 116-119, over `GetJobStatusReading`. -/
def JobSystem.isJobCompleteReading (s : JobSystem) (pastEnd : Int → Option JobStatus)
    (jobID : Int) : Except Fault Bool :=
  match s.GetJobStatusReading pastEnd jobID with
  | .ok st => .ok (decide (st = .JOB_STATUS_COMPLETED))
  | .error f => .error f

/-- The `while` loop of `JobSystem::FinishJob`, lines 139-176, over
`GetJobStatusReading`; the write of line 172 is `setJobStatus`, as in
`finishJobLoop`. -/
def finishJobLoopReading (pastEnd : Int → Option JobStatus) :
    Nat → JobSystem → Int → List Event → Except (Fault × List Event) (JobSystem × List Event)
  | 0, _, _, ev => .error (.fuelExhausted, ev)
  | fuel + 1, s, jobID, ev =>
    match s.isJobCompleteReading pastEnd jobID with
    | .error f => .error (f, ev)
    | .ok true => .ok (s, ev)
    | .ok false =>
      match s.GetJobStatusReading pastEnd jobID with
      | .error f => .error (f, ev)
      | .ok jobStatus =>
        if jobStatus = .JOB_STATUS_NEVER_SEEN ∨ jobStatus = .JOB_STATUS_RETIRED then
          .ok (s, ev ++ [.errorNoSuchJob jobID])
        else
          match extractFirst (fun someCompletedJob => decide (someCompletedJob.m_jobID = jobID))
              s.m_jobsCompleted with
          | none => .error (.nullDeref, ev ++ [.errorNotInCompletedList jobID])
          | some (thisCompletedJob, rest) =>
            match setJobStatus s.m_jobHistory thisCompletedJob.m_jobID .JOB_STATUS_RETIRED with
            | .error f => .error (f, ev ++ [.jobCompleteCallback thisCompletedJob])
            | .ok h =>
              finishJobLoopReading pastEnd fuel
                { s with m_jobsCompleted := rest, m_jobHistory := h } jobID
                (ev ++ [.jobCompleteCallback thisCompletedJob, .deleteJob thisCompletedJob])

/-- `JobSystem::FinishJob`, lines 137-177, over `GetJobStatusReading`.  Two
evaluations of the loop condition always suffice (`finishJobLoopReading_fuel`). -/
def JobSystem.FinishJobReading (s : JobSystem) (pastEnd : Int → Option JobStatus)
    (jobID : Int) : Except (Fault × List Event) (JobSystem × List Event) :=
  finishJobLoopReading pastEnd 2 s jobID []

/-- Nothing can be read outside the recorded range: the read faults. -/
def nothingPastEnd : Int → Option JobStatus := fun _ => none

/-- Every read outside the recorded range yields NEVER_SEEN: what a run reads when
the storage behind the table is zero-filled and NEVER_SEEN, the first
enumerator, is 0. -/
def neverSeenPastEnd : Int → Option JobStatus := fun _ => some .JOB_STATUS_NEVER_SEEN

/-! ## Concrete states used below -/

/-- The job with id 0 on channel 1, of the default type -1. -/
def job0 : Job := ⟨0, 0x1, -1⟩

/-- The state after `job0` was queued, claimed by a worker of mask 1 and reported
completed: one history entry, COMPLETED, and `job0` in the completed collection. -/
def oneCompletedJob : JobSystem :=
  { emptySystem with
    m_jobHistory := [⟨-1, .JOB_STATUS_COMPLETED⟩], m_jobsCompleted := [job0], totalJobs := 1 }

/-- The state after one submission, of `job0`. -/
def oneQueuedJob : JobSystem := emptySystem.QueueJob job0

/-- A queue holding only a job of mask 0x2. -/
def channelTwoQueue : JobSystem := emptySystem.QueueJob ⟨0, 0x2, -1⟩

/-- The state after `job0` was queued and claimed by a worker of mask 1. -/
def oneRunningJob : JobSystem :=
  { emptySystem with m_jobHistory := [⟨-1, .JOB_STATUS_RUNNING⟩], m_jobsRunning := [job0] }

/-- The state after `job0` was queued, claimed, reported completed and reaped: one
history entry, RETIRED, and no job held. -/
def oneRetiredJob : JobSystem :=
  { emptySystem with m_jobHistory := [⟨-1, .JOB_STATUS_RETIRED⟩], totalJobs := 1 }

/-- The second job created, with id 1, on channel 1. -/
def job1 : Job := ⟨1, 0x1, -1⟩

/-- The queue after three in-sequence submissions: a job on channel 2, then `job1`
and a third job, both on channel 1. -/
def mixedQueue : JobSystem :=
  ((emptySystem.QueueJob ⟨0, 0x2, -1⟩).QueueJob job1).QueueJob ⟨2, 0x1, -1⟩

/-- The calls that submit three jobs in sequence, have the first two claimed and
report them completed, the second before the first. -/
def completeTwoOfThree : List Op :=
  [.queueJob job0, .queueJob job1, .queueJob ⟨2, 0x1, -1⟩, .claimAJob 0x1, .claimAJob 0x1,
    .onJobCompleted job1, .onJobCompleted job0]

/-- The state after `completeTwoOfThree`: `job1` and `job0` completed, in that
order, and the third job still queued. -/
def twoCompletedJobs : JobSystem :=
  { emptySystem with
    m_jobHistory :=
      [⟨-1, .JOB_STATUS_COMPLETED⟩, ⟨-1, .JOB_STATUS_COMPLETED⟩, ⟨-1, .JOB_STATUS_QUEUED⟩],
    m_jobsQueued := [⟨2, 0x1, -1⟩], m_jobsCompleted := [job1, job0], totalJobs := 2 }

/-- The calls that submit `job0` and `job1` and have both claimed. -/
def claimTwo : List Op :=
  [.queueJob job0, .queueJob job1, .claimAJob 0x1, .claimAJob 0x1]

/-- The state after `claimTwo`: `job0` and `job1` running. -/
def twoRunningJobs : JobSystem :=
  { emptySystem with
    m_jobHistory := [⟨-1, .JOB_STATUS_RUNNING⟩, ⟨-1, .JOB_STATUS_RUNNING⟩],
    m_jobsRunning := [job0, job1] }

/-- Two submissions followed by three claims of a worker of mask 1. -/
def twoJobsThreeClaims : List Op :=
  [.queueJob job0, .queueJob job1, .claimAJob 0x1, .claimAJob 0x1, .claimAJob 0x1]

/-- A queue holding only a job with the default mask of `RenderJob`, 0xFFFFFFFF:
all bits of a 32-bit `unsigned long`. -/
def allBitsQueue : JobSystem := emptySystem.QueueJob ⟨0, 0xFFFFFFFF, -1⟩

/-- A queue holding only a job whose mask has no bit set. -/
def noBitsQueue : JobSystem := emptySystem.QueueJob ⟨0, 0x0, -1⟩

/-- The second job created, with id 1 and all bits of its mask set, submitted
first. -/
def allBitsOutOfSequence : JobSystem := emptySystem.QueueJob ⟨1, 0xFFFFFFFF, -1⟩

/-- The calls that submit `job0`, have it claimed and reported completed, and reap
it with `FinishCompletedJobs`. -/
def retireJob0 : List Op :=
  [.queueJob job0, .claimAJob 0x1, .onJobCompleted job0, .finishCompletedJobs]

/-- A worker named "render" for channel 1, not stopping. -/
def renderWorker : JobWorkerThread := ⟨"render", 0x1, false⟩

/-- The registry after workers named "io", "render" and "io" again were created. -/
def threeWorkers : JobSystem :=
  ((((emptySystem.CreateWorkerThread "io" 0x2).1).CreateWorkerThread "render" 0x1).1
    |>.CreateWorkerThread "io" 0x4).1

/-! ## Facts about the building blocks -/

theorem castInt_zero : castInt 0 = 0 := by decide

theorem castInt_ne_zero {n : Nat} (h0 : 0 < n) (h : n < 2 ^ 32) : castInt n ≠ 0 := by
  have hm : n % 2 ^ 32 = n := Nat.mod_eq_of_lt h
  unfold castInt
  rw [hm]
  split <;> omega

theorem historyAt_ok_iff {h : List JobHistoryEntry} {i : Int} {e : JobHistoryEntry} :
    historyAt h i = .ok e ↔ 0 ≤ i ∧ h[i.toNat]? = some e := by
  unfold historyAt
  by_cases hi : 0 ≤ i
  · cases hg : h[i.toNat]? <;> simp [hi]
  · simp [hi]

theorem historyAt_error {h : List JobHistoryEntry} {i : Int} {f : Fault}
    (hf : historyAt h i = .error f) : f = .outOfBounds := by
  unfold historyAt at hf
  by_cases hi : 0 ≤ i
  · cases hg : h[i.toNat]? <;> simp [hi, hg] at hf
    exact hf.symm
  · simp [hi] at hf
    exact hf.symm

theorem historyAt_ok_lt {h : List JobHistoryEntry} {i : Int} {e : JobHistoryEntry}
    (hi : historyAt h i = .ok e) : 0 ≤ i ∧ i < h.length := by
  obtain ⟨h0, hg⟩ := historyAt_ok_iff.mp hi
  have := (List.getElem?_eq_some.mp hg).1
  omega

theorem historyAt_of_lt {h : List JobHistoryEntry} {i : Int} (h0 : 0 ≤ i) (hl : i < h.length) :
    ∃ e, historyAt h i = .ok e := by
  have hlt : i.toNat < h.length := by omega
  exact ⟨h[i.toNat], historyAt_ok_iff.mpr ⟨h0, List.getElem?_eq_getElem hlt⟩⟩

theorem setJobStatus_ok_iff {h h' : List JobHistoryEntry} {i : Int} {st : JobStatus} :
    setJobStatus h i st = .ok h' ↔
      ∃ e, historyAt h i = .ok e ∧ h' = h.set i.toNat { e with m_jobStatus := st } := by
  unfold setJobStatus
  cases hh : historyAt h i with
  | error f => simp
  | ok e =>
    simp only [Except.ok.injEq]
    constructor
    · intro hEq; exact ⟨e, rfl, hEq.symm⟩
    · rintro ⟨e', he', rfl⟩; rw [he']

theorem setJobStatus_error {h : List JobHistoryEntry} {i : Int} {st : JobStatus} {f : Fault}
    (hf : setJobStatus h i st = .error f) : f = .outOfBounds ∧ ∀ e, historyAt h i ≠ .ok e := by
  unfold setJobStatus at hf
  cases hh : historyAt h i with
  | error f' =>
    rw [hh] at hf
    simp only [Except.error.injEq] at hf
    subst hf
    exact ⟨historyAt_error hh, fun e he => by cases he⟩
  | ok e => rw [hh] at hf; cases hf

theorem setJobStatus_length {h h' : List JobHistoryEntry} {i : Int} {st : JobStatus}
    (hs : setJobStatus h i st = .ok h') : h'.length = h.length := by
  obtain ⟨e, _, rfl⟩ := setJobStatus_ok_iff.mp hs
  simp

theorem historyAt_setJobStatus_same {h h' : List JobHistoryEntry} {i : Int} {st : JobStatus}
    (hs : setJobStatus h i st = .ok h') :
    ∃ e, historyAt h i = .ok e ∧ historyAt h' i = .ok { e with m_jobStatus := st } := by
  obtain ⟨e, he, rfl⟩ := setJobStatus_ok_iff.mp hs
  refine ⟨e, he, ?_⟩
  obtain ⟨h0, hlt⟩ := historyAt_ok_lt he
  have hl : i.toNat < h.length := by omega
  rw [historyAt_ok_iff]
  refine ⟨h0, ?_⟩
  rw [List.getElem?_set_self hl]

theorem historyAt_setJobStatus_other {h h' : List JobHistoryEntry} {i k : Int} {st : JobStatus}
    (hs : setJobStatus h i st = .ok h') (hk : k ≠ i) : historyAt h' k = historyAt h k := by
  obtain ⟨e, he, rfl⟩ := setJobStatus_ok_iff.mp hs
  obtain ⟨h0, _⟩ := historyAt_ok_lt he
  unfold historyAt
  by_cases hk0 : 0 ≤ k
  · have hne : i.toNat ≠ k.toNat := by omega
    simp only [hk0, if_true]
    rw [List.getElem?_set_ne hne]
  · simp [hk0]

theorem extractFirst_none_iff {α : Type} (p : α → Bool) (l : List α) :
    extractFirst p l = none ↔ ∀ x ∈ l, p x = false := by
  induction l with
  | nil => simp [extractFirst]
  | cons x xs ih =>
    unfold extractFirst
    by_cases hx : p x = true
    · simp [hx]
    · cases hr : extractFirst p xs with
      | none => simpa [hx] using ih.mp hr
      | some yr =>
        have hne : ¬ ∀ y ∈ xs, p y = false := fun hall => by
          rw [ih.mpr hall] at hr; cases hr
        have hx' : p x = false := by simpa using hx
        simp only [hx', Bool.false_eq_true, if_false, List.mem_cons, forall_eq_or_imp]
        constructor
        · intro h; cases h
        · rintro ⟨_, hall⟩
          exact absurd hall hne

theorem extractFirst_some_iff {α : Type} (p : α → Bool) (l : List α) (a : α) (r : List α) :
    extractFirst p l = some (a, r) ↔
      ∃ pre post, l = pre ++ a :: post ∧ (∀ x ∈ pre, p x = false) ∧ p a = true ∧
        r = pre ++ post := by
  induction l generalizing a r with
  | nil => simp [extractFirst]
  | cons x xs ih =>
    unfold extractFirst
    by_cases hx : p x = true
    · simp only [hx, if_true, Option.some.injEq, Prod.mk.injEq]
      constructor
      · rintro ⟨rfl, rfl⟩
        exact ⟨[], xs, rfl, by simp, hx, rfl⟩
      · rintro ⟨pre, post, hl, hpre, _, rfl⟩
        cases pre with
        | nil => simp at hl; simpa using hl
        | cons y ys =>
          simp only [List.cons_append, List.cons.injEq] at hl
          have := hpre y (by simp)
          rw [← hl.1, hx] at this
          cases this
    · simp only [hx, Bool.false_eq_true, if_false]
      constructor
      · intro h
        cases hr : extractFirst p xs with
        | none => rw [hr] at h; cases h
        | some yr =>
          obtain ⟨y, ys⟩ := yr
          rw [hr] at h
          simp only [Option.some.injEq, Prod.mk.injEq] at h
          obtain ⟨rfl, rfl⟩ := h
          obtain ⟨pre, post, hl, hpre, hy, rfl⟩ := (ih y ys).mp hr
          refine ⟨x :: pre, post, by simp [hl], ?_, hy, by simp⟩
          intro z hz
          rcases List.mem_cons.mp hz with rfl | hz
          · simpa using hx
          · exact hpre z hz
      · rintro ⟨pre, post, hl, hpre, ha, rfl⟩
        cases pre with
        | nil =>
          simp only [List.nil_append, List.cons.injEq] at hl
          rw [hl.1] at hx
          exact absurd ha hx
        | cons y ys =>
          simp only [List.cons_append, List.cons.injEq] at hl
          obtain ⟨rfl, rfl⟩ := hl
          have := (ih a (ys ++ post)).mpr ⟨ys, post, rfl, fun z hz => hpre z (by simp [hz]), ha, rfl⟩
          rw [this]
          simp

theorem extractFirst_fst {α : Type} (p : α → Bool) (l : List α) :
    (extractFirst p l).map Prod.fst = l.find? p := by
  induction l with
  | nil => rfl
  | cons x xs ih =>
    unfold extractFirst
    by_cases hx : p x = true
    · simp [hx]
    · have hx' : p x = false := by simpa using hx
      rw [List.find?_cons_of_neg _ hx, ← ih]
      cases extractFirst p xs <;> simp [hx']

/-! ## Facts about the member functions -/

theorem GetJobStatus_ok_iff {s : JobSystem} {i : Int} {st : JobStatus} :
    s.GetJobStatus i = .ok st ↔
      (castInt s.m_jobHistory.length = 0 ∧ st = .JOB_STATUS_NEVER_SEEN) ∨
      (castInt s.m_jobHistory.length ≠ 0 ∧
        ∃ e, historyAt s.m_jobHistory i = .ok e ∧ e.m_jobStatus = st) := by
  unfold JobSystem.GetJobStatus
  by_cases hc : castInt s.m_jobHistory.length = 0
  · simp only [hc, ne_eq, not_true_eq_false, if_false, Except.ok.injEq, true_and, false_and,
      or_false]
    exact eq_comm
  · cases hh : historyAt s.m_jobHistory i <;> simp [hc]

theorem isJobComplete_of_status {s : JobSystem} {i : Int} {st : JobStatus}
    (h : s.GetJobStatus i = .ok st) :
    s.isJobComplete i = .ok (decide (st = .JOB_STATUS_COMPLETED)) := by
  unfold JobSystem.isJobComplete
  rw [h]

/-- An id whose status reads COMPLETED fails the condition of the `while` at its
first evaluation: the body is never entered. -/
theorem finishJobLoop_completed {s : JobSystem} {i : Int}
    (h : s.GetJobStatus i = .ok .JOB_STATUS_COMPLETED) (n : Nat) (ev : List Event) :
    finishJobLoop (n + 1) s i ev = .ok (s, ev) := by
  unfold finishJobLoop
  rw [isJobComplete_of_status h]
  rfl

/-- An id whose status reads NEVER_SEEN or RETIRED takes the early return of
lines 143-147. -/
theorem finishJobLoop_no_such_job {s : JobSystem} {i : Int} {st : JobStatus}
    (h : s.GetJobStatus i = .ok st)
    (hst : st = .JOB_STATUS_NEVER_SEEN ∨ st = .JOB_STATUS_RETIRED) (n : Nat) (ev : List Event) :
    finishJobLoop (n + 1) s i ev = .ok (s, ev ++ [.errorNoSuchJob i]) := by
  unfold finishJobLoop
  rw [isJobComplete_of_status h]
  have hd : decide (st = .JOB_STATUS_COMPLETED) = false := by
    rcases hst with rfl | rfl <;> rfl
  rw [hd]
  simp only [h]
  rw [if_pos hst]

/-- An id whose status reads QUEUED or RUNNING enters the body and reaches the scan
of the completed collection. -/
theorem finishJobLoop_pending {s : JobSystem} {i : Int} {st : JobStatus}
    (hg : s.GetJobStatus i = .ok st) (hc : st ≠ .JOB_STATUS_COMPLETED)
    (hst : ¬ (st = .JOB_STATUS_NEVER_SEEN ∨ st = .JOB_STATUS_RETIRED)) (m : Nat)
    (ev : List Event) :
    finishJobLoop (m + 1) s i ev =
      match extractFirst (fun c : Job => decide (c.m_jobID = i)) s.m_jobsCompleted with
      | none => .error (.nullDeref, ev ++ [.errorNotInCompletedList i])
      | some (c, rest) =>
        match setJobStatus s.m_jobHistory c.m_jobID .JOB_STATUS_RETIRED with
        | .error f => .error (f, ev ++ [.jobCompleteCallback c])
        | .ok h =>
          finishJobLoop m { s with m_jobsCompleted := rest, m_jobHistory := h } i
            (ev ++ [.jobCompleteCallback c, .deleteJob c]) := by
  have hd : decide (st = .JOB_STATUS_COMPLETED) = false := by simpa using hc
  conv_lhs => unfold finishJobLoop
  rw [isJobComplete_of_status hg, hd]
  simp only [hg]
  rw [if_neg hst]

theorem finishJobLoop_of_status_error {s : JobSystem} {i : Int} {f : Fault}
    (hg : s.GetJobStatus i = .error f) (m : Nat) (ev : List Event) :
    finishJobLoop (m + 1) s i ev = .error (.outOfBounds, ev) := by
  have hf : f = .outOfBounds := by
    unfold JobSystem.GetJobStatus at hg
    split at hg
    · cases hh : historyAt s.m_jobHistory i with
      | ok e => rw [hh] at hg; cases hg
      | error f' =>
        rw [hh] at hg
        simp only [Except.error.injEq] at hg
        rw [← hg, historyAt_error hh]
    · cases hg
  subst hf
  unfold finishJobLoop JobSystem.isJobComplete
  simp only [hg]

/-- The loop of `FinishJob` never needs a third evaluation of its condition: more
fuel than two gives the result of two, which is not `fuelExhausted`. -/
theorem finishJobLoop_fuel (n : Nat) (s : JobSystem) (i : Int) (ev : List Event) :
    finishJobLoop (n + 2) s i ev = finishJobLoop 2 s i ev ∧
      ∀ ev', finishJobLoop 2 s i ev ≠ .error (.fuelExhausted, ev') := by
  cases hg : s.GetJobStatus i with
  | error f =>
    rw [finishJobLoop_of_status_error hg, finishJobLoop_of_status_error hg]
    exact ⟨rfl, fun ev' h => by cases h⟩
  | ok st =>
    by_cases hc : st = .JOB_STATUS_COMPLETED
    · subst hc
      rw [finishJobLoop_completed hg, finishJobLoop_completed hg]
      exact ⟨rfl, fun ev' h => by cases h⟩
    by_cases hst : st = .JOB_STATUS_NEVER_SEEN ∨ st = .JOB_STATUS_RETIRED
    · rw [finishJobLoop_no_such_job hg hst, finishJobLoop_no_such_job hg hst]
      exact ⟨rfl, fun ev' h => by cases h⟩
    rw [finishJobLoop_pending hg hc hst, finishJobLoop_pending hg hc hst]
    cases hx : extractFirst (fun c : Job => decide (c.m_jobID = i)) s.m_jobsCompleted with
    | none =>
      dsimp only
      exact ⟨rfl, fun ev' h => by cases h⟩
    | some cr =>
      obtain ⟨c, rest⟩ := cr
      obtain ⟨pre, post, _, _, hci, _⟩ := (extractFirst_some_iff _ _ _ _).mp hx
      have hci : c.m_jobID = i := by simpa using hci
      dsimp only
      cases hs : setJobStatus s.m_jobHistory c.m_jobID .JOB_STATUS_RETIRED with
      | error f =>
        have := (setJobStatus_error hs).1
        subst this
        dsimp only
        exact ⟨rfl, fun ev' h => by cases h⟩
      | ok h =>
        have hlen : castInt s.m_jobHistory.length ≠ 0 := by
          rcases GetJobStatus_ok_iff.mp hg with ⟨_, h1⟩ | ⟨h1, _⟩
          · exact absurd (Or.inl h1) hst
          · exact h1
        have hret : JobSystem.GetJobStatus
            { s with m_jobsCompleted := rest, m_jobHistory := h } i = .ok .JOB_STATUS_RETIRED := by
          rw [GetJobStatus_ok_iff]
          right
          rw [hci] at hs
          obtain ⟨e, _, he'⟩ := historyAt_setJobStatus_same hs
          exact ⟨by simpa [setJobStatus_length hs] using hlen, _, he', rfl⟩
        dsimp only
        rw [finishJobLoop_no_such_job hret (Or.inr rfl), finishJobLoop_no_such_job hret (Or.inr rfl)]
        exact ⟨rfl, fun ev' h => by cases h⟩

theorem setJobStatus_of_entry {h : List JobHistoryEntry} {i : Int} {e : JobHistoryEntry}
    (he : historyAt h i = .ok e) (st : JobStatus) :
    setJobStatus h i st = .ok (h.set i.toNat { e with m_jobStatus := st }) :=
  setJobStatus_ok_iff.mpr ⟨e, he, rfl⟩

theorem ClaimAJob_of_no_match {s : JobSystem} {w : Nat}
    (h : extractFirst (fun q : Job => decide (q.m_jobChannels &&& w ≠ 0)) s.m_jobsQueued = none) :
    s.ClaimAJob w = .ok (s, none) := by
  unfold JobSystem.ClaimAJob
  rw [h]

theorem ClaimAJob_of_match {s : JobSystem} {w : Nat} {j : Job} {rest : List Job}
    (h : extractFirst (fun q : Job => decide (q.m_jobChannels &&& w ≠ 0)) s.m_jobsQueued =
      some (j, rest)) :
    s.ClaimAJob w =
      match setJobStatus s.m_jobHistory j.m_jobID .JOB_STATUS_RUNNING with
      | .ok h' =>
        .ok ({ s with
               m_jobsQueued := rest,
               m_jobsRunning := s.m_jobsRunning ++ [j],
               m_jobHistory := h' }, some j)
      | .error f => .error f := by
  unfold JobSystem.ClaimAJob
  rw [h]

theorem historyAt_eq_of_length {h h' : List JobHistoryEntry} {k : Int}
    (hlen : h'.length = h.length) (hk : ∀ e, historyAt h k ≠ .ok e) :
    historyAt h' k = historyAt h k := by
  have hk' : ∀ e, historyAt h' k ≠ .ok e := by
    intro e he
    obtain ⟨h0, hlt⟩ := historyAt_ok_lt he
    obtain ⟨e0, he0⟩ := @historyAt_of_lt h k h0 (by omega)
    exact hk e0 he0
  cases h1 : historyAt h k with
  | ok e => exact absurd h1 (hk e)
  | error f =>
    cases h2 : historyAt h' k with
    | ok e => exact absurd h2 (hk' e)
    | error f' => rw [historyAt_error h1, historyAt_error h2]

theorem finishCompletedLoop_ok (l : List Job) :
    ∀ (s : JobSystem) (ev : List Event),
      (∀ j ∈ l, 0 ≤ j.m_jobID ∧ j.m_jobID < s.m_jobHistory.length) →
      ∃ h', finishCompletedLoop l s ev =
          .ok ({ s with m_jobHistory := h' }, ev ++ l.map Event.jobCompleteCallback) ∧
        h'.length = s.m_jobHistory.length ∧
        ∀ k e, historyAt s.m_jobHistory k = .ok e →
          historyAt h' k =
            .ok (if k ∈ l.map Job.m_jobID then { e with m_jobStatus := .JOB_STATUS_RETIRED }
              else e) := by
  induction l with
  | nil =>
    intro s ev _
    exact ⟨s.m_jobHistory, by simp [finishCompletedLoop], rfl, fun k e he => by simpa using he⟩
  | cons j rest ih =>
    intro s ev hin
    obtain ⟨h0, hlt⟩ := hin j (by simp)
    obtain ⟨e0, he0⟩ := historyAt_of_lt h0 hlt
    have hs := setJobStatus_of_entry he0 .JOB_STATUS_RETIRED
    have hlen1 := setJobStatus_length hs
    obtain ⟨h', hrun, hlen, hent⟩ := ih
      { s with
        m_jobHistory :=
          s.m_jobHistory.set j.m_jobID.toNat ({ e0 with m_jobStatus := .JOB_STATUS_RETIRED }) }
      (ev ++ [.jobCompleteCallback j])
      (fun x hx => by
        have := hin x (by simp [hx])
        rw [hlen1]
        exact this)
    refine ⟨h', ?_, by rw [hlen, hlen1], ?_⟩
    · unfold finishCompletedLoop
      rw [hs]
      simpa using hrun
    · intro k e he
      by_cases hk : k = j.m_jobID
      · subst hk
        obtain ⟨e', he', hnew⟩ := historyAt_setJobStatus_same hs
        rw [he] at he'
        cases he'
        rw [hent _ _ hnew]
        simp
      · rw [hent k e (by rw [historyAt_setJobStatus_other hs hk]; exact he)]
        simp [hk]

theorem extractFirst_eq_erase (job : Job) (l : List Job) (hmem : job ∈ l) :
    extractFirst (fun running => decide (job = running)) l = some (job, l.erase job) := by
  induction l with
  | nil => cases hmem
  | cons x xs ih =>
    unfold extractFirst
    by_cases hx : job = x
    · subst hx
      simp
    · have hmem' : job ∈ xs := by
        rcases List.mem_cons.mp hmem with h | h
        · exact absurd h hx
        · exact h
      have hx' : x ≠ job := fun h => hx h.symm
      simp [hx, ih hmem', List.erase_cons, hx']

theorem OnJobCompleted_of_not_running {s : JobSystem} {job : Job}
    (h : job ∉ s.m_jobsRunning) :
    s.OnJobCompleted job = .ok { s with totalJobs := s.totalJobs + 1 } := by
  have hx : extractFirst (fun running => decide (job = running)) s.m_jobsRunning = none := by
    rw [extractFirst_none_iff]
    intro x hx
    have : job ≠ x := fun hEq => h (hEq ▸ hx)
    simpa using this
  unfold JobSystem.OnJobCompleted
  simp only [hx]

theorem OnJobCompleted_of_running {s : JobSystem} {job : Job}
    (h : job ∈ s.m_jobsRunning) :
    s.OnJobCompleted job =
      match setJobStatus s.m_jobHistory job.m_jobID .JOB_STATUS_COMPLETED with
      | .ok h' =>
        .ok { s with
              totalJobs := s.totalJobs + 1,
              m_jobsRunning := s.m_jobsRunning.erase job,
              m_jobsCompleted := s.m_jobsCompleted ++ [job],
              m_jobHistory := h' }
      | .error f => .error f := by
  unfold JobSystem.OnJobCompleted
  simp only [extractFirst_eq_erase job s.m_jobsRunning h]

/-! ## Facts about the invariant -/

theorem jobIDs_split {l pre post : List Job} {j : Job} (hl : l = pre ++ j :: post)
    (hn : (jobIDs l).Nodup) :
    (jobIDs (pre ++ post)).Nodup ∧
      ∀ i, i ∈ jobIDs (pre ++ post) ↔ i ∈ jobIDs l ∧ i ≠ j.m_jobID := by
  subst hl
  simp only [jobIDs, List.map_append, List.map_cons] at hn ⊢
  have h1 := List.nodup_middle.mp hn
  rw [List.nodup_cons] at h1
  refine ⟨h1.2, fun i => ?_⟩
  simp only [List.mem_append, List.mem_cons]
  constructor
  · intro hi
    refine ⟨by tauto, ?_⟩
    rintro rfl
    exact h1.1 (by simpa using hi)
  · rintro ⟨hi, hne⟩
    tauto

theorem jobIDs_concat (l : List Job) (j : Job) :
    jobIDs (l ++ [j]) = jobIDs l ++ [j.m_jobID] := by
  simp [jobIDs]

theorem nodup_jobIDs_concat {l : List Job} {j : Job} (hn : (jobIDs l).Nodup)
    (hj : j.m_jobID ∉ jobIDs l) : (jobIDs (l ++ [j])).Nodup := by
  rw [jobIDs_concat, List.nodup_append]
  refine ⟨hn, List.nodup_singleton _, ?_⟩
  intro x hx hx'
  rw [List.mem_singleton] at hx'
  exact hj (hx' ▸ hx)

theorem mem_jobIDs_concat (l : List Job) (j : Job) (i : Int) :
    i ∈ jobIDs (l ++ [j]) ↔ i ∈ jobIDs l ∨ i = j.m_jobID := by
  rw [jobIDs_concat]
  simp

theorem mem_jobIDs_of_mem {l : List Job} {j : Job} (h : j ∈ l) : j.m_jobID ∈ jobIDs l :=
  List.mem_map_of_mem _ h

theorem recordsStatus_lt {h : List JobHistoryEntry} {i : Int} {st : JobStatus}
    (hr : recordsStatus h i st) : 0 ≤ i ∧ i < h.length := by
  obtain ⟨e, he, _⟩ := hr
  exact historyAt_ok_lt he

theorem recordsStatus_unique {h : List JobHistoryEntry} {i : Int} {a b : JobStatus}
    (ha : recordsStatus h i a) (hb : recordsStatus h i b) : a = b := by
  obtain ⟨e, he, rfl⟩ := ha
  obtain ⟨e', he', rfl⟩ := hb
  rw [he] at he'
  cases he'
  rfl

theorem recordsStatus_setJobStatus {h h' : List JobHistoryEntry} {i0 : Int} {st0 : JobStatus}
    (hs : setJobStatus h i0 st0 = .ok h') (i : Int) (st : JobStatus) :
    recordsStatus h' i st ↔ (i = i0 ∧ st = st0) ∨ (i ≠ i0 ∧ recordsStatus h i st) := by
  by_cases hi : i = i0
  · subst hi
    obtain ⟨e, he, hnew⟩ := historyAt_setJobStatus_same hs
    constructor
    · rintro ⟨e', he', rfl⟩
      rw [hnew] at he'
      cases he'
      exact Or.inl ⟨rfl, rfl⟩
    · rintro (⟨_, rfl⟩ | ⟨hne, _⟩)
      · exact ⟨_, hnew, rfl⟩
      · exact absurd rfl hne
  · unfold recordsStatus
    rw [historyAt_setJobStatus_other hs hi]
    simp [hi]

theorem historyAt_concat (h : List JobHistoryEntry) (x : JobHistoryEntry) (i : Int) :
    historyAt (h ++ [x]) i = if i = (h.length : Int) then .ok x else historyAt h i := by
  unfold historyAt
  by_cases h0 : 0 ≤ i
  · simp only [h0, if_true]
    by_cases hi : i = (h.length : Int)
    · have hn : i.toNat = h.length := by omega
      simp [hi]
    · rw [if_neg hi]
      have hn : i.toNat ≠ h.length := by omega
      rcases Nat.lt_or_gt_of_ne hn with hlt | hgt
      · rw [List.getElem?_append_left hlt]
      · have h1 : (h ++ [x])[i.toNat]? = none :=
          List.getElem?_eq_none (by simp; omega)
        have h2 : h[i.toNat]? = none := List.getElem?_eq_none (by omega)
        rw [h1, h2]
  · have hi : i ≠ (h.length : Int) := by omega
    simp [h0, hi]

theorem recordsStatus_concat (h : List JobHistoryEntry) (x : JobHistoryEntry) (i : Int)
    (st : JobStatus) :
    recordsStatus (h ++ [x]) i st ↔
      (i = (h.length : Int) ∧ st = x.m_jobStatus) ∨ recordsStatus h i st := by
  unfold recordsStatus
  rw [historyAt_concat]
  by_cases hi : i = (h.length : Int)
  · simp only [hi, if_true, Except.ok.injEq, true_and]
    constructor
    · rintro ⟨e, rfl, rfl⟩
      exact Or.inl rfl
    · rintro (rfl | ⟨e, he, _⟩)
      · exact ⟨x, rfl, rfl⟩
      · have := (historyAt_ok_lt he).2
        omega
  · simp [hi]

theorem consistent_emptySystem : emptySystem.Consistent := by
  have hno : ∀ i st, ¬ recordsStatus emptySystem.m_jobHistory i st := by
    intro i st hr
    have h1 := recordsStatus_lt hr
    simp [emptySystem] at h1
    omega
  constructor <;> first | exact List.nodup_nil | (intro i; simp [emptySystem, jobIDs]; exact hno i _)

theorem consistent_queueJob {s : JobSystem} {job : Job} (hc : s.Consistent)
    (hid : job.m_jobID = s.m_jobHistory.length) : (s.QueueJob job).Consistent := by
  have hfresh : ∀ st, ¬ recordsStatus s.m_jobHistory job.m_jobID st := by
    intro st hr
    have := (recordsStatus_lt hr).2
    omega
  have hnew : ∀ i st, recordsStatus (s.QueueJob job).m_jobHistory i st ↔
      (i = job.m_jobID ∧ st = .JOB_STATUS_QUEUED) ∨ recordsStatus s.m_jobHistory i st := by
    intro i st
    simp only [JobSystem.QueueJob]
    rw [recordsStatus_concat, hid]
  constructor
  · exact nodup_jobIDs_concat hc.nodupQueued (fun h => hfresh _ ((hc.queued _).mp h))
  · exact hc.nodupRunning
  · exact hc.nodupCompleted
  · intro i
    rw [hnew]
    show i ∈ jobIDs (s.m_jobsQueued ++ [job]) ↔ _
    rw [mem_jobIDs_concat, hc.queued i]
    tauto
  · intro i
    rw [hnew]
    show i ∈ jobIDs s.m_jobsRunning ↔ _
    rw [hc.running i]
    simp
  · intro i
    rw [hnew]
    show i ∈ jobIDs s.m_jobsCompleted ↔ _
    rw [hc.completed i]
    simp

/-- What a returning `ClaimAJob` does to the state: nothing, or the move of one
queued job to the back of running with its entry set to RUNNING. -/
theorem ClaimAJob_effect {s s' : JobSystem} {w : Nat} {r : Option Job}
    (h : s.ClaimAJob w = .ok (s', r)) :
    s' = s ∨
      ∃ pre j post h', s.m_jobsQueued = pre ++ j :: post ∧
        setJobStatus s.m_jobHistory j.m_jobID .JOB_STATUS_RUNNING = .ok h' ∧
        s' = { s with
               m_jobsQueued := pre ++ post,
               m_jobsRunning := s.m_jobsRunning ++ [j],
               m_jobHistory := h' } := by
  cases hx : extractFirst (fun q : Job => decide (q.m_jobChannels &&& w ≠ 0)) s.m_jobsQueued with
  | none =>
    rw [ClaimAJob_of_no_match hx] at h
    simp only [Except.ok.injEq, Prod.mk.injEq] at h
    exact Or.inl h.1.symm
  | some cr =>
    obtain ⟨j, rest⟩ := cr
    obtain ⟨pre, post, hq, _, _, hrest⟩ := (extractFirst_some_iff _ _ _ _).mp hx
    rw [ClaimAJob_of_match hx] at h
    cases hs : setJobStatus s.m_jobHistory j.m_jobID .JOB_STATUS_RUNNING with
    | error f => rw [hs] at h; cases h
    | ok h' =>
      rw [hs] at h
      simp only [Except.ok.injEq, Prod.mk.injEq] at h
      exact Or.inr ⟨pre, j, post, h', hq, hs, by rw [← h.1, hrest]⟩

/-- What a returning `OnJobCompleted` does to the state: it counts the call and
either changes nothing else, or moves one running job to the back of completed
with its entry set to COMPLETED. -/
theorem OnJobCompleted_effect {s s' : JobSystem} {job : Job}
    (h : s.OnJobCompleted job = .ok s') :
    s' = { s with totalJobs := s.totalJobs + 1 } ∨
      ∃ pre post h', s.m_jobsRunning = pre ++ job :: post ∧
        setJobStatus s.m_jobHistory job.m_jobID .JOB_STATUS_COMPLETED = .ok h' ∧
        s' = { s with
               totalJobs := s.totalJobs + 1,
               m_jobsRunning := pre ++ post,
               m_jobsCompleted := s.m_jobsCompleted ++ [job],
               m_jobHistory := h' } := by
  by_cases hmem : job ∈ s.m_jobsRunning
  · rw [OnJobCompleted_of_running hmem] at h
    obtain ⟨pre, post, _, hr, herase⟩ := List.exists_erase_eq hmem
    cases hs : setJobStatus s.m_jobHistory job.m_jobID .JOB_STATUS_COMPLETED with
    | error f => rw [hs] at h; cases h
    | ok h' =>
      rw [hs] at h
      simp only [Except.ok.injEq] at h
      exact Or.inr ⟨pre, post, h', hr, rfl, by rw [← h, herase]⟩
  · rw [OnJobCompleted_of_not_running hmem] at h
    simp only [Except.ok.injEq] at h
    exact Or.inl h.symm

theorem consistent_claimAJob {s s' : JobSystem} {w : Nat} {r : Option Job}
    (hc : s.Consistent) (h : s.ClaimAJob w = .ok (s', r)) : s'.Consistent := by
  rcases ClaimAJob_effect h with rfl | ⟨pre, j, post, h', hq, hs, rfl⟩
  · exact hc
  have hnew := recordsStatus_setJobStatus hs
  obtain ⟨hnd, hmem⟩ := jobIDs_split hq hc.nodupQueued
  have hjq : recordsStatus s.m_jobHistory j.m_jobID .JOB_STATUS_QUEUED :=
    (hc.queued _).mp (mem_jobIDs_of_mem (by rw [hq]; simp))
  have hjr : ¬ recordsStatus s.m_jobHistory j.m_jobID .JOB_STATUS_RUNNING :=
    fun hr => by cases recordsStatus_unique hjq hr
  have hjc : ¬ recordsStatus s.m_jobHistory j.m_jobID .JOB_STATUS_COMPLETED :=
    fun hr => by cases recordsStatus_unique hjq hr
  constructor
  · exact hnd
  · exact nodup_jobIDs_concat hc.nodupRunning (fun hm => hjr ((hc.running _).mp hm))
  · exact hc.nodupCompleted
  · intro i
    show i ∈ jobIDs (pre ++ post) ↔ recordsStatus h' i .JOB_STATUS_QUEUED
    rw [hmem, hnew, hc.queued]
    by_cases hi : i = j.m_jobID <;> simp [hi]
  · intro i
    show i ∈ jobIDs (s.m_jobsRunning ++ [j]) ↔ recordsStatus h' i .JOB_STATUS_RUNNING
    rw [mem_jobIDs_concat, hnew, hc.running]
    by_cases hi : i = j.m_jobID <;> simp [hi]
  · intro i
    show i ∈ jobIDs s.m_jobsCompleted ↔ recordsStatus h' i .JOB_STATUS_COMPLETED
    rw [hnew, hc.completed]
    by_cases hi : i = j.m_jobID
    · subst hi; simp [hjc]
    · simp [hi]

theorem consistent_onJobCompleted {s s' : JobSystem} {job : Job}
    (hc : s.Consistent) (h : s.OnJobCompleted job = .ok s') : s'.Consistent := by
  rcases OnJobCompleted_effect h with rfl | ⟨pre, post, h', hq, hs, rfl⟩
  · exact ⟨hc.nodupQueued, hc.nodupRunning, hc.nodupCompleted, hc.queued, hc.running,
      hc.completed⟩
  have hnew := recordsStatus_setJobStatus hs
  obtain ⟨hnd, hmem⟩ := jobIDs_split hq hc.nodupRunning
  have hjr : recordsStatus s.m_jobHistory job.m_jobID .JOB_STATUS_RUNNING :=
    (hc.running _).mp (mem_jobIDs_of_mem (by rw [hq]; simp))
  have hjq : ¬ recordsStatus s.m_jobHistory job.m_jobID .JOB_STATUS_QUEUED :=
    fun hr => by cases recordsStatus_unique hjr hr
  have hjc : ¬ recordsStatus s.m_jobHistory job.m_jobID .JOB_STATUS_COMPLETED :=
    fun hr => by cases recordsStatus_unique hjr hr
  constructor
  · exact hc.nodupQueued
  · exact hnd
  · exact nodup_jobIDs_concat hc.nodupCompleted (fun hm => hjc ((hc.completed _).mp hm))
  · intro i
    show i ∈ jobIDs s.m_jobsQueued ↔ recordsStatus h' i .JOB_STATUS_QUEUED
    rw [hnew, hc.queued]
    by_cases hi : i = job.m_jobID
    · subst hi; simp [hjq]
    · simp [hi]
  · intro i
    show i ∈ jobIDs (pre ++ post) ↔ recordsStatus h' i .JOB_STATUS_RUNNING
    rw [hmem, hnew, hc.running]
    by_cases hi : i = job.m_jobID <;> simp [hi]
  · intro i
    show i ∈ jobIDs (s.m_jobsCompleted ++ [job]) ↔ recordsStatus h' i .JOB_STATUS_COMPLETED
    rw [mem_jobIDs_concat, hnew, hc.completed]
    by_cases hi : i = job.m_jobID <;> simp [hi]

/-- What a returning `FinishCompletedJobs` does to the state when every completed
job has a history entry. -/
theorem FinishCompletedJobs_effect {s s' : JobSystem} {ev : List Event}
    (hentry : ∀ j ∈ s.m_jobsCompleted, 0 ≤ j.m_jobID ∧ j.m_jobID < s.m_jobHistory.length)
    (h : s.FinishCompletedJobs = .ok (s', ev)) :
    ∃ h', s' = { s with m_jobsCompleted := [], m_jobHistory := h' } ∧
      h'.length = s.m_jobHistory.length ∧
      ∀ i st, recordsStatus h' i st ↔
        (i ∈ jobIDs s.m_jobsCompleted ∧ st = .JOB_STATUS_RETIRED) ∨
        (i ∉ jobIDs s.m_jobsCompleted ∧ recordsStatus s.m_jobHistory i st) := by
  obtain ⟨h', hrun, hlen, hent⟩ :=
    finishCompletedLoop_ok s.m_jobsCompleted { s with m_jobsCompleted := [] } [] hentry
  unfold JobSystem.FinishCompletedJobs at h
  rw [hrun] at h
  simp only [Except.ok.injEq, Prod.mk.injEq] at h
  refine ⟨h', h.1.symm, hlen, fun i st => ?_⟩
  have hent' : ∀ e, historyAt s.m_jobHistory i = .ok e →
      historyAt h' i = .ok (if i ∈ jobIDs s.m_jobsCompleted then
        { e with m_jobStatus := .JOB_STATUS_RETIRED } else e) := hent i
  constructor
  · rintro ⟨e', he', rfl⟩
    obtain ⟨h0, hlt⟩ := historyAt_ok_lt he'
    obtain ⟨e, he⟩ := @historyAt_of_lt s.m_jobHistory i h0 (by rw [hlen] at hlt; exact hlt)
    have := hent' e he
    rw [he'] at this
    simp only [Except.ok.injEq] at this
    by_cases hi : i ∈ jobIDs s.m_jobsCompleted
    · rw [if_pos hi] at this
      exact Or.inl ⟨hi, by rw [this]⟩
    · rw [if_neg hi] at this
      exact Or.inr ⟨hi, e, he, by rw [this]⟩
  · rintro (⟨hi, rfl⟩ | ⟨hi, e, he, rfl⟩)
    · have hin : 0 ≤ i ∧ i < s.m_jobHistory.length := by
        obtain ⟨j, hj, hji⟩ := List.mem_map.mp hi
        exact hji ▸ hentry j hj
      obtain ⟨e, he⟩ := historyAt_of_lt hin.1 hin.2
      exact ⟨_, by rw [hent' e he, if_pos hi], rfl⟩
    · exact ⟨e, by rw [hent' e he, if_neg hi], rfl⟩

theorem consistent_entries {s : JobSystem} (hc : s.Consistent) :
    ∀ j ∈ s.m_jobsCompleted, 0 ≤ j.m_jobID ∧ j.m_jobID < s.m_jobHistory.length :=
  fun _ hj => recordsStatus_lt ((hc.completed _).mp (mem_jobIDs_of_mem hj))

theorem consistent_finishCompletedJobs {s s' : JobSystem} {ev : List Event}
    (hc : s.Consistent) (h : s.FinishCompletedJobs = .ok (s', ev)) : s'.Consistent := by
  obtain ⟨h', rfl, _, hnew⟩ := FinishCompletedJobs_effect (consistent_entries hc) h
  have hcomp : ∀ i, i ∈ jobIDs s.m_jobsCompleted → ∀ st,
      recordsStatus s.m_jobHistory i st → st = .JOB_STATUS_COMPLETED :=
    fun i hi st hr => recordsStatus_unique hr ((hc.completed i).mp hi)
  constructor
  · exact hc.nodupQueued
  · exact hc.nodupRunning
  · exact List.nodup_nil
  · intro i
    show i ∈ jobIDs s.m_jobsQueued ↔ recordsStatus h' i .JOB_STATUS_QUEUED
    rw [hnew, hc.queued]
    constructor
    · intro hr
      exact Or.inr ⟨fun hi => absurd (hcomp i hi _ hr) (by decide), hr⟩
    · rintro (⟨_, hst⟩ | ⟨_, hr⟩)
      · cases hst
      · exact hr
  · intro i
    show i ∈ jobIDs s.m_jobsRunning ↔ recordsStatus h' i .JOB_STATUS_RUNNING
    rw [hnew, hc.running]
    constructor
    · intro hr
      exact Or.inr ⟨fun hi => absurd (hcomp i hi _ hr) (by decide), hr⟩
    · rintro (⟨_, hst⟩ | ⟨_, hr⟩)
      · cases hst
      · exact hr
  · intro i
    show i ∈ jobIDs ([] : List Job) ↔ recordsStatus h' i .JOB_STATUS_COMPLETED
    rw [hnew]
    constructor
    · intro hi
      cases hi
    · rintro (⟨_, hst⟩ | ⟨hi, hr⟩)
      · cases hst
      · exact absurd ((hc.completed i).mpr hr) hi

/-- In a state that satisfies the invariant, a `FinishJob` that returns has changed
nothing: an id recorded as QUEUED or RUNNING is not in the completed collection,
and the call through the null pointer of line 169 follows. -/
theorem FinishJob_of_consistent {s s' : JobSystem} {jobID : Int} {ev : List Event}
    (hc : s.Consistent) (h : s.FinishJob jobID = .ok (s', ev)) : s' = s := by
  unfold JobSystem.FinishJob at h
  cases hg : s.GetJobStatus jobID with
  | error f =>
    rw [finishJobLoop_of_status_error hg] at h
    cases h
  | ok st =>
    by_cases hcomp : st = .JOB_STATUS_COMPLETED
    · subst hcomp
      rw [finishJobLoop_completed hg] at h
      simp only [Except.ok.injEq, Prod.mk.injEq] at h
      exact h.1.symm
    by_cases hst : st = .JOB_STATUS_NEVER_SEEN ∨ st = .JOB_STATUS_RETIRED
    · rw [finishJobLoop_no_such_job hg hst] at h
      simp only [Except.ok.injEq, Prod.mk.injEq] at h
      exact h.1.symm
    rw [finishJobLoop_pending hg hcomp hst] at h
    cases hx : extractFirst (fun c : Job => decide (c.m_jobID = jobID)) s.m_jobsCompleted with
    | none =>
      rw [hx] at h
      cases h
    | some cr =>
      obtain ⟨c, rest⟩ := cr
      obtain ⟨pre, post, hq, _, hci, _⟩ := (extractFirst_some_iff _ _ _ _).mp hx
      have hci : c.m_jobID = jobID := by simpa using hci
      have hrec : recordsStatus s.m_jobHistory jobID .JOB_STATUS_COMPLETED :=
        (hc.completed _).mp (hci ▸ mem_jobIDs_of_mem (by rw [hq]; simp))
      rcases GetJobStatus_ok_iff.mp hg with ⟨_, h1⟩ | ⟨_, e, he, hes⟩
      · exact absurd (Or.inl h1) hst
      · exact absurd (recordsStatus_unique ⟨e, he, hes⟩ hrec) hcomp

/-! ## Facts about the transition system -/

theorem step_claimAJob {s s' : JobSystem} {w : Nat} (h : s.step (.claimAJob w) = some s') :
    ∃ r, s.ClaimAJob w = .ok (s', r) := by
  simp only [JobSystem.step] at h
  cases hr : s.ClaimAJob w with
  | error f => rw [hr] at h; cases h
  | ok x =>
    obtain ⟨s1, r⟩ := x
    rw [hr] at h
    simp only [Option.some.injEq] at h
    exact ⟨r, by rw [h]⟩

theorem step_onJobCompleted {s s' : JobSystem} {job : Job}
    (h : s.step (.onJobCompleted job) = some s') : s.OnJobCompleted job = .ok s' := by
  simp only [JobSystem.step] at h
  cases hr : s.OnJobCompleted job with
  | error f => rw [hr] at h; cases h
  | ok s1 =>
    rw [hr] at h
    simp only [Option.some.injEq] at h
    rw [h]

theorem step_finishCompletedJobs {s s' : JobSystem}
    (h : s.step .finishCompletedJobs = some s') : ∃ ev, s.FinishCompletedJobs = .ok (s', ev) := by
  simp only [JobSystem.step] at h
  cases hr : s.FinishCompletedJobs with
  | error f => rw [hr] at h; cases h
  | ok x =>
    obtain ⟨s1, ev⟩ := x
    rw [hr] at h
    simp only [Option.some.injEq] at h
    exact ⟨ev, by rw [h]⟩

theorem step_finishJob {s s' : JobSystem} {jobID : Int}
    (h : s.step (.finishJob jobID) = some s') : ∃ ev, s.FinishJob jobID = .ok (s', ev) := by
  simp only [JobSystem.step] at h
  cases hr : s.FinishJob jobID with
  | error f => rw [hr] at h; cases h
  | ok x =>
    obtain ⟨s1, ev⟩ := x
    rw [hr] at h
    simp only [Option.some.injEq] at h
    exact ⟨ev, by rw [h]⟩

theorem step_queueJob {s s' : JobSystem} {job : Job} (h : s.step (.queueJob job) = some s') :
    s' = s.QueueJob job := by
  simp only [JobSystem.step, Option.some.injEq] at h
  exact h.symm

theorem step_consistent {s s' : JobSystem} {op : Op} (hc : s.Consistent)
    (hseq : op.inSequence s) (h : s.step op = some s') : s'.Consistent := by
  cases op with
  | queueJob job =>
    rw [step_queueJob h]
    exact consistent_queueJob hc hseq.1
  | claimAJob w =>
    obtain ⟨r, hr⟩ := step_claimAJob h
    exact consistent_claimAJob hc hr
  | onJobCompleted job => exact consistent_onJobCompleted hc (step_onJobCompleted h)
  | finishCompletedJobs =>
    obtain ⟨ev, hr⟩ := step_finishCompletedJobs h
    exact consistent_finishCompletedJobs hc hr
  | finishJob jobID =>
    obtain ⟨ev, hr⟩ := step_finishJob h
    rw [FinishJob_of_consistent hc hr]
    exact hc

/-- A step taken from a state that satisfies the invariant changes the status
recorded for an id by at most one stage of the life cycle, forwards. -/
theorem step_records {s s' : JobSystem} {op : Op} (hc : s.Consistent)
    (h : s.step op = some s') (i : Int) (st : JobStatus)
    (hr : recordsStatus s.m_jobHistory i st) :
    ∃ st', recordsStatus s'.m_jobHistory i st' ∧
      (st' = st ∨ st'.rank = st.rank + 1) := by
  cases op with
  | queueJob job =>
    rw [step_queueJob h]
    exact ⟨st, (recordsStatus_concat _ _ _ _).mpr (Or.inr hr), Or.inl rfl⟩
  | claimAJob w =>
    obtain ⟨r, hcl⟩ := step_claimAJob h
    rcases ClaimAJob_effect hcl with rfl | ⟨pre, j, post, h', hq, hs, rfl⟩
    · exact ⟨st, hr, Or.inl rfl⟩
    have hnew := recordsStatus_setJobStatus hs
    by_cases hi : i = j.m_jobID
    · subst hi
      have hjq : recordsStatus s.m_jobHistory j.m_jobID .JOB_STATUS_QUEUED :=
        (hc.queued _).mp (mem_jobIDs_of_mem (by rw [hq]; simp))
      cases recordsStatus_unique hr hjq
      exact ⟨.JOB_STATUS_RUNNING, (hnew _ _).mpr (Or.inl ⟨rfl, rfl⟩), Or.inr rfl⟩
    · exact ⟨st, (hnew _ _).mpr (Or.inr ⟨hi, hr⟩), Or.inl rfl⟩
  | onJobCompleted job =>
    rcases OnJobCompleted_effect (step_onJobCompleted h) with rfl | ⟨pre, post, h', hq, hs, rfl⟩
    · exact ⟨st, hr, Or.inl rfl⟩
    have hnew := recordsStatus_setJobStatus hs
    by_cases hi : i = job.m_jobID
    · subst hi
      have hjr : recordsStatus s.m_jobHistory job.m_jobID .JOB_STATUS_RUNNING :=
        (hc.running _).mp (mem_jobIDs_of_mem (by rw [hq]; simp))
      cases recordsStatus_unique hr hjr
      exact ⟨.JOB_STATUS_COMPLETED, (hnew _ _).mpr (Or.inl ⟨rfl, rfl⟩), Or.inr rfl⟩
    · exact ⟨st, (hnew _ _).mpr (Or.inr ⟨hi, hr⟩), Or.inl rfl⟩
  | finishCompletedJobs =>
    obtain ⟨ev, hf⟩ := step_finishCompletedJobs h
    obtain ⟨h', rfl, _, hnew⟩ := FinishCompletedJobs_effect (consistent_entries hc) hf
    by_cases hi : i ∈ jobIDs s.m_jobsCompleted
    · cases recordsStatus_unique hr ((hc.completed i).mp hi)
      exact ⟨.JOB_STATUS_RETIRED, (hnew _ _).mpr (Or.inl ⟨hi, rfl⟩), Or.inr rfl⟩
    · exact ⟨st, (hnew _ _).mpr (Or.inr ⟨hi, hr⟩), Or.inl rfl⟩
  | finishJob jobID =>
    obtain ⟨ev, hf⟩ := step_finishJob h
    rw [FinishJob_of_consistent hc hf]
    exact ⟨st, hr, Or.inl rfl⟩

/-- No step records NEVER_SEEN for an id. -/
theorem step_never_seen {s s' : JobSystem} {op : Op} (hc : s.Consistent)
    (h : s.step op = some s') (i : Int)
    (hr : recordsStatus s'.m_jobHistory i .JOB_STATUS_NEVER_SEEN) :
    recordsStatus s.m_jobHistory i .JOB_STATUS_NEVER_SEEN := by
  cases op with
  | queueJob job =>
    rw [step_queueJob h] at hr
    rcases (recordsStatus_concat _ _ _ _).mp hr with ⟨_, hst⟩ | hold
    · cases hst
    · exact hold
  | claimAJob w =>
    obtain ⟨r, hcl⟩ := step_claimAJob h
    rcases ClaimAJob_effect hcl with rfl | ⟨pre, j, post, h', hq, hs, rfl⟩
    · exact hr
    rcases (recordsStatus_setJobStatus hs _ _).mp hr with ⟨_, hst⟩ | ⟨_, hold⟩
    · cases hst
    · exact hold
  | onJobCompleted job =>
    rcases OnJobCompleted_effect (step_onJobCompleted h) with rfl | ⟨pre, post, h', hq, hs, rfl⟩
    · exact hr
    rcases (recordsStatus_setJobStatus hs _ _).mp hr with ⟨_, hst⟩ | ⟨_, hold⟩
    · cases hst
    · exact hold
  | finishCompletedJobs =>
    obtain ⟨ev, hf⟩ := step_finishCompletedJobs h
    obtain ⟨h', rfl, _, hnew⟩ := FinishCompletedJobs_effect (consistent_entries hc) hf
    rcases (hnew _ _).mp hr with ⟨_, hst⟩ | ⟨_, hold⟩
    · cases hst
    · exact hold
  | finishJob jobID =>
    obtain ⟨ev, hf⟩ := step_finishJob h
    rw [FinishJob_of_consistent hc hf] at hr
    exact hr

/-- A step taken from a state that satisfies the invariant keeps the history
table or, for a submission, makes it one entry longer. -/
theorem step_length {s s' : JobSystem} {op : Op} (hc : s.Consistent)
    (h : s.step op = some s') :
    s.m_jobHistory.length ≤ s'.m_jobHistory.length ∧
      s'.m_jobHistory.length ≤ s.m_jobHistory.length + 1 ∧
      ((∀ job, op ≠ .queueJob job) → s'.m_jobHistory.length = s.m_jobHistory.length) := by
  cases op with
  | queueJob job =>
    rw [step_queueJob h]
    simp [JobSystem.QueueJob]
  | claimAJob w =>
    obtain ⟨r, hcl⟩ := step_claimAJob h
    rcases ClaimAJob_effect hcl with rfl | ⟨pre, j, post, h', hq, hs, rfl⟩
    · simp
    · simp [setJobStatus_length hs]
  | onJobCompleted job =>
    rcases OnJobCompleted_effect (step_onJobCompleted h) with rfl | ⟨pre, post, h', hq, hs, rfl⟩
    · simp
    · simp [setJobStatus_length hs]
  | finishCompletedJobs =>
    obtain ⟨ev, hf⟩ := step_finishCompletedJobs h
    obtain ⟨h', rfl, hlen, _⟩ := FinishCompletedJobs_effect (consistent_entries hc) hf
    simp [hlen]
  | finishJob jobID =>
    obtain ⟨ev, hf⟩ := step_finishJob h
    rw [FinishJob_of_consistent hc hf]
    simp

/-- Every reachable state satisfies the invariant, records NEVER_SEEN for no id,
and has a history table whose size fits an `int`. -/
theorem reachable_invariants {s : JobSystem} (hr : Reachable s) :
    s.Consistent ∧ (∀ i, ¬ recordsStatus s.m_jobHistory i .JOB_STATUS_NEVER_SEEN) ∧
      s.m_jobHistory.length ≤ 2 ^ 31 := by
  induction hr with
  | init =>
    refine ⟨consistent_emptySystem, fun i hi => ?_, by simp [emptySystem]⟩
    have h1 := recordsStatus_lt hi
    simp [emptySystem] at h1
    omega
  | @step s0 s1 op _ hseq hstep ih =>
    obtain ⟨hc, hns, hlen⟩ := ih
    refine ⟨step_consistent hc hseq hstep, fun i hi => hns i (step_never_seen hc hstep i hi), ?_⟩
    obtain ⟨_, hle, hsame⟩ := step_length hc hstep
    cases op with
    | queueJob job =>
      obtain ⟨hid, hint⟩ := hseq
      have h31 : (s0.m_jobHistory.length : Int) < 2 ^ 31 := hid ▸ hint
      have h31' : s0.m_jobHistory.length < 2 ^ 31 := by exact_mod_cast h31
      omega
    | claimAJob w => rw [hsame (fun job hj => by cases hj)]; exact hlen
    | onJobCompleted job => rw [hsame (fun job hj => by cases hj)]; exact hlen
    | finishCompletedJobs => rw [hsame (fun job hj => by cases hj)]; exact hlen
    | finishJob jobID => rw [hsame (fun job hj => by cases hj)]; exact hlen

theorem GetJobStatus_of_records {s : JobSystem} {i : Int} {st : JobStatus}
    (hlen : s.m_jobHistory.length < 2 ^ 32) (hr : recordsStatus s.m_jobHistory i st) :
    s.GetJobStatus i = .ok st := by
  obtain ⟨e, he, hst⟩ := hr
  have hpos : 0 < s.m_jobHistory.length := by
    have := historyAt_ok_lt he
    omega
  exact GetJobStatus_ok_iff.mpr (Or.inr ⟨castInt_ne_zero hpos hlen, e, he, hst⟩)

/-! ## C1: `FinishJob` on a completed job -/

/-- C1 fails on the code: `job0` was queued, claimed and reported completed, so its
status is COMPLETED and it is in the completed collection, yet `FinishJob(0)`
returns at once: the state is unchanged (the job is still in the completed
collection, its status still COMPLETED) and no callback is invoked. -/
theorem FinishJob_on_completed_job_does_nothing :
    ((emptySystem.step (.queueJob job0)).bind (fun s => s.step (.claimAJob 0x1))).bind
        (fun s => s.step (.onJobCompleted job0)) = some oneCompletedJob ∧
      oneCompletedJob.GetJobStatus 0 = .ok .JOB_STATUS_COMPLETED ∧
      job0 ∈ oneCompletedJob.m_jobsCompleted ∧
      oneCompletedJob.FinishJob 0 = .ok (oneCompletedJob, []) := by
  decide

/-! ## C2: `GetJobStatus` outside the recorded range -/

/-- Whenever the history table is non-empty (and its size fits 32 bits), an id outside
the recorded range makes `GetJobStatus` index the table past its end. -/
theorem GetJobStatus_out_of_range {s : JobSystem} {i : Int}
    (hpos : 0 < s.m_jobHistory.length) (hlen : s.m_jobHistory.length < 2 ^ 32)
    (hi : i < 0 ∨ (s.m_jobHistory.length : Int) ≤ i) :
    s.GetJobStatus i = .error .outOfBounds := by
  unfold JobSystem.GetJobStatus
  rw [if_pos (castInt_ne_zero hpos hlen)]
  cases hh : historyAt s.m_jobHistory i with
  | ok e =>
    have := historyAt_ok_lt hh
    omega
  | error f => rw [historyAt_error hh]

/-- C2 fails on the code: with one recorded job, the condition of line 106 is the
non-zero size, so `GetJobStatus(7)` and `GetJobStatus(-1)` index the history
table past its end instead of returning NEVER_SEEN. -/
theorem GetJobStatus_out_of_range_indexes_history :
    oneQueuedJob.m_jobHistory.length = 1 ∧
      oneQueuedJob.GetJobStatus 7 = .error .outOfBounds ∧
      oneQueuedJob.GetJobStatus (-1) = .error .outOfBounds := by
  decide

/-! ## C3: which workers can claim -/

/-- C3: for every state and every worker mask `w`, `ClaimAJob(w)` returns a job
if and only if some queued job `j` has `(j.channelMask AND w) != 0`.  This holds
in every state reached by in-sequence submissions and, more generally, whenever
the earliest queued job whose mask intersects `w`, if there is one, has a history
entry at its id, so that the write of line 221 is inside the table.  In every
state whatever: a job that is returned is a queued job whose mask intersects `w`;
no job is returned only if no queued job matches; and when no queued job matches,
no job is returned and the state is unchanged. -/
theorem ClaimAJob_returns_job_iff_match (s : JobSystem) (w : Nat) :
    ((Reachable s ∨
        ∀ j, s.m_jobsQueued.find? (fun q => decide (q.m_jobChannels &&& w ≠ 0)) = some j →
          0 ≤ j.m_jobID ∧ j.m_jobID < s.m_jobHistory.length) →
      ((∃ s' j, s.ClaimAJob w = .ok (s', some j)) ↔
        ∃ j ∈ s.m_jobsQueued, j.m_jobChannels &&& w ≠ 0)) ∧
      (∀ s' j, s.ClaimAJob w = .ok (s', some j) →
        j ∈ s.m_jobsQueued ∧ j.m_jobChannels &&& w ≠ 0) ∧
      (∀ s', s.ClaimAJob w = .ok (s', none) → ∀ j ∈ s.m_jobsQueued, j.m_jobChannels &&& w = 0) ∧
      ((∀ j ∈ s.m_jobsQueued, j.m_jobChannels &&& w = 0) → s.ClaimAJob w = .ok (s, none)) := by
  have key : ∀ s' j, s.ClaimAJob w = .ok (s', some j) →
      j ∈ s.m_jobsQueued ∧ j.m_jobChannels &&& w ≠ 0 := by
    intro s' j h
    cases hx : extractFirst (fun q : Job => decide (q.m_jobChannels &&& w ≠ 0)) s.m_jobsQueued with
    | none => rw [ClaimAJob_of_no_match hx] at h; cases h
    | some cr =>
      obtain ⟨c, rest⟩ := cr
      obtain ⟨pre, post, hq, _, hc, _⟩ := (extractFirst_some_iff _ _ _ _).mp hx
      rw [ClaimAJob_of_match hx] at h
      cases hs : setJobStatus s.m_jobHistory c.m_jobID .JOB_STATUS_RUNNING with
      | error f => rw [hs] at h; cases h
      | ok h' =>
        rw [hs] at h
        simp only [Except.ok.injEq, Prod.mk.injEq, Option.some.injEq] at h
        obtain ⟨_, rfl⟩ := h
        exact ⟨by simp [hq], by simpa using hc⟩
  refine ⟨fun hyp => ⟨fun ⟨s', j, h⟩ => ⟨j, key s' j h⟩, ?_⟩, key, ?_, ?_⟩
  · have hentry : ∀ j,
        s.m_jobsQueued.find? (fun q => decide (q.m_jobChannels &&& w ≠ 0)) = some j →
          0 ≤ j.m_jobID ∧ j.m_jobID < s.m_jobHistory.length := by
      rcases hyp with hr | he
      · intro j hj
        have hc := (reachable_invariants hr).1
        exact recordsStatus_lt
          ((hc.queued _).mp (mem_jobIDs_of_mem (List.mem_of_find?_eq_some hj)))
      · exact he
    rintro ⟨j, hj, hm⟩
    cases hx : extractFirst (fun q : Job => decide (q.m_jobChannels &&& w ≠ 0)) s.m_jobsQueued with
    | none =>
      have := (extractFirst_none_iff _ _).mp hx j hj
      simp only [decide_eq_false_iff_not, not_not] at this
      exact absurd this hm
    | some cr =>
      obtain ⟨c, rest⟩ := cr
      have hfind : s.m_jobsQueued.find? (fun q => decide (q.m_jobChannels &&& w ≠ 0)) = some c := by
        rw [← extractFirst_fst, hx]; rfl
      obtain ⟨h0, hlt⟩ := hentry c hfind
      obtain ⟨e, he⟩ := historyAt_of_lt h0 hlt
      exact ⟨_, c, by rw [ClaimAJob_of_match hx, setJobStatus_of_entry he]⟩
  · intro s' h j hj
    cases hx : extractFirst (fun q : Job => decide (q.m_jobChannels &&& w ≠ 0)) s.m_jobsQueued with
    | none => simpa using (extractFirst_none_iff _ _).mp hx j hj
    | some cr =>
      obtain ⟨c, rest⟩ := cr
      rw [ClaimAJob_of_match hx] at h
      cases hs : setJobStatus s.m_jobHistory c.m_jobID .JOB_STATUS_RUNNING with
      | error f => rw [hs] at h; cases h
      | ok h' =>
        rw [hs] at h
        simp only [Except.ok.injEq, Prod.mk.injEq] at h
        exact absurd h.2 (by simp)
  · intro hall
    apply ClaimAJob_of_no_match
    rw [extractFirst_none_iff]
    intro x hx
    simp [hall x hx]

/-- C3 at three inputs: after `job0` (mask 0x1) was queued, a state reached by an
in-sequence submission, a worker of mask 0x1 is returned a job; after a job of
mask 0x2 and then `job0` were queued, both with id 0, so not in sequence, the
earliest match `job0` has a history entry and a worker of mask 0x1 is returned a
job; and the example of the claim: a worker of mask 0x1 facing a queue that
holds only a job of mask 0x2 claims nothing and changes nothing. -/
theorem ClaimAJob_returns_job_iff_match_witness :
    (∃ s' j, oneQueuedJob.ClaimAJob 0x1 = .ok (s', some j)) ∧
      (∃ s' j, (channelTwoQueue.QueueJob job0).ClaimAJob 0x1 = .ok (s', some j)) ∧
      channelTwoQueue.ClaimAJob 0x1 = .ok (channelTwoQueue, none) :=
  ⟨((ClaimAJob_returns_job_iff_match oneQueuedJob 0x1).1
      (Or.inl (@Reachable.step emptySystem oneQueuedJob (.queueJob job0) Reachable.init
        ⟨by decide, by decide⟩ (by decide)))).mpr ⟨job0, by decide, by decide⟩,
   ((ClaimAJob_returns_job_iff_match (channelTwoQueue.QueueJob job0) 0x1).1 (Or.inr (fun j hj => by
      rw [show (channelTwoQueue.QueueJob job0).m_jobsQueued.find?
          (fun q => decide (q.m_jobChannels &&& 0x1 ≠ 0)) = some job0 from by decide] at hj
      cases hj
      decide))).mpr ⟨job0, by decide, by decide⟩,
   (ClaimAJob_returns_job_iff_match channelTwoQueue 0x1).2.2.2 (by decide)⟩

/-! ## C4: what a successful claim does -/

/-- C4: for every state and mask `w` with a matching queued job, `j` being the
earliest one (the queued collection is `pre ++ j :: post`, no job of `pre` has a
mask intersecting `w`, the mask of `j` does) and `e` its history entry,
`ClaimAJob(w)` returns `j`, and in the resulting state queued is `pre ++ post`,
running is the old running with `j` appended at the back, the entry at the id of
`j` is `e` with status RUNNING, and every other history entry, the size of the
table and the completed collection are unchanged. -/
theorem ClaimAJob_claims_earliest_match (s : JobSystem) (w : Nat) (pre post : List Job)
    (j : Job) (e : JobHistoryEntry)
    (hq : s.m_jobsQueued = pre ++ j :: post)
    (hpre : ∀ x ∈ pre, x.m_jobChannels &&& w = 0)
    (hj : j.m_jobChannels &&& w ≠ 0)
    (he : historyAt s.m_jobHistory j.m_jobID = .ok e) :
    ∃ s', s.ClaimAJob w = .ok (s', some j) ∧
      s'.m_jobsQueued = pre ++ post ∧
      s'.m_jobsRunning = s.m_jobsRunning ++ [j] ∧
      s'.m_jobsCompleted = s.m_jobsCompleted ∧
      historyAt s'.m_jobHistory j.m_jobID = .ok { e with m_jobStatus := .JOB_STATUS_RUNNING } ∧
      (∀ k, k ≠ j.m_jobID → historyAt s'.m_jobHistory k = historyAt s.m_jobHistory k) ∧
      s'.m_jobHistory.length = s.m_jobHistory.length := by
  have hx : extractFirst (fun q : Job => decide (q.m_jobChannels &&& w ≠ 0)) s.m_jobsQueued =
      some (j, pre ++ post) :=
    (extractFirst_some_iff _ _ _ _).mpr
      ⟨pre, post, hq, fun x hx => by simp [hpre x hx], by simpa using hj, rfl⟩
  have hs := setJobStatus_of_entry he .JOB_STATUS_RUNNING
  refine ⟨{ s with
      m_jobsQueued := pre ++ post,
      m_jobsRunning := s.m_jobsRunning ++ [j],
      m_jobHistory := s.m_jobHistory.set j.m_jobID.toNat
        { e with m_jobStatus := .JOB_STATUS_RUNNING } },
    by rw [ClaimAJob_of_match hx, hs], rfl, rfl, rfl, ?_, ?_, ?_⟩
  · obtain ⟨e', he', hnew⟩ := historyAt_setJobStatus_same hs
    rw [he] at he'
    cases he'
    exact hnew
  · intro k hk
    exact historyAt_setJobStatus_other hs hk
  · exact setJobStatus_length hs

/-- C4 at an input: the queue holds a job of mask 0x2, then `job1` and a third job,
both of mask 0x1; `ClaimAJob(0x1)` passes over the first, returns `job1` and
leaves the other two queued, in their order. -/
theorem ClaimAJob_claims_earliest_match_witness :
    ∃ s', mixedQueue.ClaimAJob 0x1 = .ok (s', some job1) ∧
      s'.m_jobsQueued = [⟨0, 0x2, -1⟩] ++ [⟨2, 0x1, -1⟩] ∧
      s'.m_jobsRunning = mixedQueue.m_jobsRunning ++ [job1] ∧
      s'.m_jobsCompleted = mixedQueue.m_jobsCompleted ∧
      historyAt s'.m_jobHistory job1.m_jobID = .ok ⟨-1, .JOB_STATUS_RUNNING⟩ ∧
      (∀ k, k ≠ job1.m_jobID →
        historyAt s'.m_jobHistory k = historyAt mixedQueue.m_jobHistory k) ∧
      s'.m_jobHistory.length = mixedQueue.m_jobHistory.length :=
  ClaimAJob_claims_earliest_match mixedQueue 0x1 [⟨0, 0x2, -1⟩] [⟨2, 0x1, -1⟩] job1
    ⟨-1, .JOB_STATUS_QUEUED⟩ (by decide) (by decide) (by decide) (by decide)

/-! ## C5: the history entry written by `QueueJob` -/

/-- C5 fails on the code: `QueueJob` appends the entry at index `size()` (line 93),
whatever the id of the job, while every other function finds the entry of a job
at index `m_jobID` (lines 108, 132, 172, 193, 221).  Submitting to the empty
system a job whose id is 3 and whose type is 7 puts the entry at index 0; the
table has no entry at index 3, and `GetJobStatus(3)` does not return QUEUED. -/
theorem QueueJob_entry_not_at_job_id :
    (emptySystem.QueueJob ⟨3, 0x1, 7⟩).m_jobHistory = [⟨7, .JOB_STATUS_QUEUED⟩] ∧
      historyAt (emptySystem.QueueJob ⟨3, 0x1, 7⟩).m_jobHistory 3 = .error .outOfBounds ∧
      (emptySystem.QueueJob ⟨3, 0x1, 7⟩).GetJobStatus 3 ≠ .ok .JOB_STATUS_QUEUED := by
  decide

/-- Where the entry is at the id: for every state and every job whose id equals the
number of history entries (the id being an `int`, below 2^31), after
`QueueJob(job)` the history table has at index `job.id` the entry with the job's
type tag and status QUEUED, and `GetJobStatus(job.id)` returns QUEUED. -/
theorem QueueJob_in_sequence_records_entry (s : JobSystem) (job : Job)
    (hid : job.m_jobID = s.m_jobHistory.length) (hint : job.m_jobID < 2 ^ 31) :
    historyAt (s.QueueJob job).m_jobHistory job.m_jobID =
        .ok ⟨job.m_jobType, .JOB_STATUS_QUEUED⟩ ∧
      (s.QueueJob job).GetJobStatus job.m_jobID = .ok .JOB_STATUS_QUEUED := by
  have hentry : historyAt (s.QueueJob job).m_jobHistory job.m_jobID =
      .ok ⟨job.m_jobType, .JOB_STATUS_QUEUED⟩ := by
    rw [historyAt_ok_iff]
    refine ⟨by omega, ?_⟩
    have hn : job.m_jobID.toNat = s.m_jobHistory.length := by omega
    simp [JobSystem.QueueJob, hn]
  refine ⟨hentry, GetJobStatus_ok_iff.mpr (Or.inr ⟨?_, _, hentry, rfl⟩)⟩
  have hlen : (s.QueueJob job).m_jobHistory.length = s.m_jobHistory.length + 1 := by
    simp [JobSystem.QueueJob]
  rw [hlen]
  apply castInt_ne_zero
  · omega
  · have h31 : s.m_jobHistory.length < 2 ^ 31 := by
      have := hid ▸ hint
      exact_mod_cast this
    omega

/-- The first job, with id 0, submitted to the empty system. -/
theorem QueueJob_in_sequence_records_entry_witness :
    historyAt (emptySystem.QueueJob job0).m_jobHistory job0.m_jobID =
        .ok ⟨job0.m_jobType, .JOB_STATUS_QUEUED⟩ ∧
      (emptySystem.QueueJob job0).GetJobStatus job0.m_jobID = .ok .JOB_STATUS_QUEUED :=
  QueueJob_in_sequence_records_entry emptySystem job0 (by decide) (by decide)

/-! ## C9: the status/collection invariant holds in every reachable state -/

/-- C9: in every state reachable from the empty system by `QueueJob` of the next job
(its id is the number of jobs submitted so far), `ClaimAJob`, `OnJobCompleted`,
`FinishCompletedJobs` and `FinishJob`, no id is held twice by the queued, running
and completed collections together, so the three are pairwise disjoint; the
history status of an id is QUEUED iff a job of that id is in queued, RUNNING iff
one is in running, COMPLETED iff one is in completed; and an id whose status is
RETIRED is the id of no job in any of the three. -/
theorem reachable_status_matches_collection (s : JobSystem) (hr : Reachable s) :
    (jobIDs (s.m_jobsQueued ++ s.m_jobsRunning ++ s.m_jobsCompleted)).Nodup ∧
      s.m_jobsQueued.Disjoint s.m_jobsRunning ∧
      s.m_jobsQueued.Disjoint s.m_jobsCompleted ∧
      s.m_jobsRunning.Disjoint s.m_jobsCompleted ∧
      (∀ i, recordsStatus s.m_jobHistory i .JOB_STATUS_QUEUED ↔
        ∃ j ∈ s.m_jobsQueued, j.m_jobID = i) ∧
      (∀ i, recordsStatus s.m_jobHistory i .JOB_STATUS_RUNNING ↔
        ∃ j ∈ s.m_jobsRunning, j.m_jobID = i) ∧
      (∀ i, recordsStatus s.m_jobHistory i .JOB_STATUS_COMPLETED ↔
        ∃ j ∈ s.m_jobsCompleted, j.m_jobID = i) ∧
      (∀ i, recordsStatus s.m_jobHistory i .JOB_STATUS_RETIRED →
        ∀ j, j ∈ s.m_jobsQueued ∨ j ∈ s.m_jobsRunning ∨ j ∈ s.m_jobsCompleted →
          j.m_jobID ≠ i) := by
  obtain ⟨hc, _, _⟩ := reachable_invariants hr
  have hq : ∀ j ∈ s.m_jobsQueued, recordsStatus s.m_jobHistory j.m_jobID .JOB_STATUS_QUEUED :=
    fun j hj => (hc.queued _).mp (mem_jobIDs_of_mem hj)
  have hrn : ∀ j ∈ s.m_jobsRunning, recordsStatus s.m_jobHistory j.m_jobID .JOB_STATUS_RUNNING :=
    fun j hj => (hc.running _).mp (mem_jobIDs_of_mem hj)
  have hcp : ∀ j ∈ s.m_jobsCompleted,
      recordsStatus s.m_jobHistory j.m_jobID .JOB_STATUS_COMPLETED :=
    fun j hj => (hc.completed _).mp (mem_jobIDs_of_mem hj)
  have hmem : ∀ (l : List Job) (i : Int), i ∈ jobIDs l ↔ ∃ j ∈ l, j.m_jobID = i :=
    fun l i => List.mem_map
  refine ⟨?_, ?_, ?_, ?_, ?_, ?_, ?_, ?_⟩
  · simp only [jobIDs, List.map_append]
    rw [List.nodup_append, List.nodup_append]
    refine ⟨⟨hc.nodupQueued, hc.nodupRunning, ?_⟩, hc.nodupCompleted, ?_⟩
    · intro i h1 h2
      cases recordsStatus_unique ((hc.queued i).mp h1) ((hc.running i).mp h2)
    · intro i h1 h2
      rcases List.mem_append.mp h1 with h1 | h1
      · cases recordsStatus_unique ((hc.queued i).mp h1) ((hc.completed i).mp h2)
      · cases recordsStatus_unique ((hc.running i).mp h1) ((hc.completed i).mp h2)
  · intro j h1 h2
    cases recordsStatus_unique (hq j h1) (hrn j h2)
  · intro j h1 h2
    cases recordsStatus_unique (hq j h1) (hcp j h2)
  · intro j h1 h2
    cases recordsStatus_unique (hrn j h1) (hcp j h2)
  · intro i
    rw [← hmem, hc.queued]
  · intro i
    rw [← hmem, hc.running]
  · intro i
    rw [← hmem, hc.completed]
  · rintro i hret j (hj | hj | hj) rfl
    · cases recordsStatus_unique hret (hq j hj)
    · cases recordsStatus_unique hret (hrn j hj)
    · cases recordsStatus_unique hret (hcp j hj)

/-- C9 at an input: the state reached by submitting `job0` and claiming it. -/
theorem reachable_status_matches_collection_witness :
    (jobIDs (oneRunningJob.m_jobsQueued ++ oneRunningJob.m_jobsRunning ++
        oneRunningJob.m_jobsCompleted)).Nodup ∧
      oneRunningJob.m_jobsQueued.Disjoint oneRunningJob.m_jobsRunning ∧
      oneRunningJob.m_jobsQueued.Disjoint oneRunningJob.m_jobsCompleted ∧
      oneRunningJob.m_jobsRunning.Disjoint oneRunningJob.m_jobsCompleted ∧
      (∀ i, recordsStatus oneRunningJob.m_jobHistory i .JOB_STATUS_QUEUED ↔
        ∃ j ∈ oneRunningJob.m_jobsQueued, j.m_jobID = i) ∧
      (∀ i, recordsStatus oneRunningJob.m_jobHistory i .JOB_STATUS_RUNNING ↔
        ∃ j ∈ oneRunningJob.m_jobsRunning, j.m_jobID = i) ∧
      (∀ i, recordsStatus oneRunningJob.m_jobHistory i .JOB_STATUS_COMPLETED ↔
        ∃ j ∈ oneRunningJob.m_jobsCompleted, j.m_jobID = i) ∧
      (∀ i, recordsStatus oneRunningJob.m_jobHistory i .JOB_STATUS_RETIRED →
        ∀ j, j ∈ oneRunningJob.m_jobsQueued ∨ j ∈ oneRunningJob.m_jobsRunning ∨
          j ∈ oneRunningJob.m_jobsCompleted → j.m_jobID ≠ i) :=
  reachable_status_matches_collection oneRunningJob
    (@Reachable.step oneQueuedJob oneRunningJob (.claimAJob 0x1)
      (@Reachable.step emptySystem oneQueuedJob (.queueJob job0) Reachable.init
        ⟨by decide, by decide⟩ (by decide))
      trivial (by decide))

/-! ## C10: the status of a job never regresses -/

/-- C10: in every reachable state, for every call (`QueueJob`, `ClaimAJob`,
`OnJobCompleted`, `FinishCompletedJobs`, `FinishJob`) that returns and every id
already recorded in the history table, `GetJobStatus` returns a status before and
after the call, both among QUEUED < RUNNING < COMPLETED < RETIRED, and the one
after is equal to or later than the one before; in particular RETIRED stays
RETIRED and RUNNING does not become QUEUED. -/
theorem status_never_regresses (s s' : JobSystem) (op : Op) (hr : Reachable s)
    (hstep : s.step op = some s') (i : Int) (hi : 0 ≤ i ∧ i < s.m_jobHistory.length) :
    ∃ st st', s.GetJobStatus i = .ok st ∧ s'.GetJobStatus i = .ok st' ∧
      st ≠ .JOB_STATUS_NEVER_SEEN ∧ st' ≠ .JOB_STATUS_NEVER_SEEN ∧
      st.rank ≤ st'.rank ∧
      (st = .JOB_STATUS_RETIRED → st' = .JOB_STATUS_RETIRED) ∧
      (st = .JOB_STATUS_RUNNING → st' ≠ .JOB_STATUS_QUEUED) := by
  obtain ⟨hc, hns, hlen⟩ := reachable_invariants hr
  obtain ⟨e, he⟩ := historyAt_of_lt hi.1 hi.2
  have hrec : recordsStatus s.m_jobHistory i e.m_jobStatus := ⟨e, he, rfl⟩
  obtain ⟨st', hrec', hst'⟩ := step_records hc hstep i _ hrec
  obtain ⟨_, hle, _⟩ := step_length hc hstep
  have hne : e.m_jobStatus ≠ .JOB_STATUS_NEVER_SEEN := fun h => hns i (h ▸ hrec)
  have hrank : e.m_jobStatus.rank ≤ st'.rank := by
    rcases hst' with h | h
    · rw [h]
    · omega
  refine ⟨e.m_jobStatus, st', GetJobStatus_of_records (by omega) hrec,
    GetJobStatus_of_records (by omega) hrec', hne, ?_, hrank, ?_, ?_⟩
  · intro h
    rw [h] at hrank
    cases hs : e.m_jobStatus <;> simp [hs, JobStatus.rank] at hrank hne
  · intro h
    rw [h] at hrank
    cases st' <;> simp [JobStatus.rank] at hrank ⊢
  · intro h h'
    rw [h, h'] at hrank
    simp [JobStatus.rank] at hrank

/-- C10 at an input: `job0`, recorded as QUEUED, is claimed and reads RUNNING. -/
theorem status_never_regresses_witness :
    ∃ st st', oneQueuedJob.GetJobStatus 0 = .ok st ∧ oneRunningJob.GetJobStatus 0 = .ok st' ∧
      st ≠ .JOB_STATUS_NEVER_SEEN ∧ st' ≠ .JOB_STATUS_NEVER_SEEN ∧
      st.rank ≤ st'.rank ∧
      (st = .JOB_STATUS_RETIRED → st' = .JOB_STATUS_RETIRED) ∧
      (st = .JOB_STATUS_RUNNING → st' ≠ .JOB_STATUS_QUEUED) :=
  status_never_regresses oneQueuedJob oneRunningJob (.claimAJob 0x1)
    (@Reachable.step emptySystem oneQueuedJob (.queueJob job0) Reachable.init
      ⟨by decide, by decide⟩ (by decide))
    (by decide) 0 (by decide)

/-! ## What a returning call does, in any state -/

theorem finishCompletedLoop_entries (l : List Job) :
    ∀ (s : JobSystem) (ev : List Event) (r : JobSystem × List Event),
      finishCompletedLoop l s ev = .ok r →
      ∀ j ∈ l, 0 ≤ j.m_jobID ∧ j.m_jobID < s.m_jobHistory.length := by
  induction l with
  | nil => intro s ev r _ j hj; cases hj
  | cons x rest ih =>
    intro s ev r h j hj
    unfold finishCompletedLoop at h
    cases hs : setJobStatus s.m_jobHistory x.m_jobID .JOB_STATUS_RETIRED with
    | error f => rw [hs] at h; cases h
    | ok h' =>
      rw [hs] at h
      rcases List.mem_cons.mp hj with rfl | hj
      · obtain ⟨e, he, _⟩ := setJobStatus_ok_iff.mp hs
        exact historyAt_ok_lt he
      · have := ih _ _ r h j hj
        simpa [setJobStatus_length hs] using this

/-- A `FinishCompletedJobs` that returns found a history entry for every completed
job, emptied the completed collection, invoked the callbacks in order and wrote
RETIRED at the ids of the completed jobs and nowhere else. -/
theorem FinishCompletedJobs_returns {s s' : JobSystem} {ev : List Event}
    (h : s.FinishCompletedJobs = .ok (s', ev)) :
    (∀ j ∈ s.m_jobsCompleted, 0 ≤ j.m_jobID ∧ j.m_jobID < s.m_jobHistory.length) ∧
      ev = s.m_jobsCompleted.map Event.jobCompleteCallback ∧
      ∃ h', s' = { s with m_jobsCompleted := [], m_jobHistory := h' } ∧
        h'.length = s.m_jobHistory.length ∧
        ∀ k e, historyAt s.m_jobHistory k = .ok e →
          historyAt h' k =
            .ok (if k ∈ jobIDs s.m_jobsCompleted then
              { e with m_jobStatus := .JOB_STATUS_RETIRED } else e) := by
  have hentry := finishCompletedLoop_entries s.m_jobsCompleted _ _ _ h
  obtain ⟨h', hrun, hlen, hent⟩ :=
    finishCompletedLoop_ok s.m_jobsCompleted { s with m_jobsCompleted := [] } [] hentry
  unfold JobSystem.FinishCompletedJobs at h
  rw [hrun] at h
  simp only [Except.ok.injEq, Prod.mk.injEq, List.nil_append] at h
  exact ⟨hentry, h.2.symm, h', h.1.symm, hlen, hent⟩

/-- A `FinishJob` that returns has changed nothing, or has found in the completed
collection a job of the id whose status read QUEUED or RUNNING, removed it and
recorded RETIRED for the id. -/
theorem FinishJob_returns {s s' : JobSystem} {jobID : Int} {ev : List Event}
    (h : s.FinishJob jobID = .ok (s', ev)) :
    s' = s ∨
      ∃ pre c post h', s.m_jobsCompleted = pre ++ c :: post ∧ c.m_jobID = jobID ∧
        setJobStatus s.m_jobHistory jobID .JOB_STATUS_RETIRED = .ok h' ∧
        s' = { s with m_jobsCompleted := pre ++ post, m_jobHistory := h' } := by
  unfold JobSystem.FinishJob at h
  cases hg : s.GetJobStatus jobID with
  | error f =>
    rw [finishJobLoop_of_status_error hg] at h
    cases h
  | ok st =>
    by_cases hcomp : st = .JOB_STATUS_COMPLETED
    · subst hcomp
      rw [finishJobLoop_completed hg] at h
      simp only [Except.ok.injEq, Prod.mk.injEq] at h
      exact Or.inl h.1.symm
    by_cases hst : st = .JOB_STATUS_NEVER_SEEN ∨ st = .JOB_STATUS_RETIRED
    · rw [finishJobLoop_no_such_job hg hst] at h
      simp only [Except.ok.injEq, Prod.mk.injEq] at h
      exact Or.inl h.1.symm
    rw [finishJobLoop_pending hg hcomp hst] at h
    cases hx : extractFirst (fun c : Job => decide (c.m_jobID = jobID)) s.m_jobsCompleted with
    | none =>
      rw [hx] at h
      cases h
    | some cr =>
      obtain ⟨c, rest⟩ := cr
      obtain ⟨pre, post, hq, _, hci, hrest⟩ := (extractFirst_some_iff _ _ _ _).mp hx
      have hci : c.m_jobID = jobID := by simpa using hci
      rw [hx] at h
      dsimp only at h
      cases hs : setJobStatus s.m_jobHistory c.m_jobID .JOB_STATUS_RETIRED with
      | error f => rw [hs] at h; cases h
      | ok h' =>
        rw [hs] at h
        dsimp only at h
        have hlen : castInt s.m_jobHistory.length ≠ 0 := by
          rcases GetJobStatus_ok_iff.mp hg with ⟨_, h1⟩ | ⟨h1, _⟩
          · exact absurd (Or.inl h1) hst
          · exact h1
        have hret : JobSystem.GetJobStatus
            { s with m_jobsCompleted := rest, m_jobHistory := h' } jobID =
              .ok .JOB_STATUS_RETIRED := by
          rw [GetJobStatus_ok_iff]
          right
          rw [hci] at hs
          obtain ⟨e, _, he'⟩ := historyAt_setJobStatus_same hs
          exact ⟨by simpa [setJobStatus_length hs] using hlen, _, he', rfl⟩
        rw [finishJobLoop_no_such_job hret (Or.inr rfl)] at h
        simp only [Except.ok.injEq, Prod.mk.injEq] at h
        refine Or.inr ⟨pre, c, post, h', hq, hci, by rw [← hci]; exact hs, ?_⟩
        rw [← h.1, hrest]

/-- What a returning `ClaimAJob` hands back: no job and the state as it was, or the
earliest queued job whose mask intersects the worker's, moved to running. -/
theorem ClaimAJob_returns {s s' : JobSystem} {w : Nat} {r : Option Job}
    (h : s.ClaimAJob w = .ok (s', r)) :
    (r = none ∧ s' = s ∧ ∀ x ∈ s.m_jobsQueued, x.m_jobChannels &&& w = 0) ∨
      ∃ pre j post h', r = some j ∧ s.m_jobsQueued = pre ++ j :: post ∧
        (∀ x ∈ pre, x.m_jobChannels &&& w = 0) ∧ j.m_jobChannels &&& w ≠ 0 ∧
        setJobStatus s.m_jobHistory j.m_jobID .JOB_STATUS_RUNNING = .ok h' ∧
        s' = { s with
               m_jobsQueued := pre ++ post,
               m_jobsRunning := s.m_jobsRunning ++ [j],
               m_jobHistory := h' } := by
  cases hx : extractFirst (fun q : Job => decide (q.m_jobChannels &&& w ≠ 0)) s.m_jobsQueued with
  | none =>
    rw [ClaimAJob_of_no_match hx] at h
    simp only [Except.ok.injEq, Prod.mk.injEq] at h
    refine Or.inl ⟨h.2.symm, h.1.symm, fun x hxq => ?_⟩
    simpa using (extractFirst_none_iff _ _).mp hx x hxq
  | some cr =>
    obtain ⟨j, rest⟩ := cr
    obtain ⟨pre, post, hq, hpre, hj, hrest⟩ := (extractFirst_some_iff _ _ _ _).mp hx
    rw [ClaimAJob_of_match hx] at h
    cases hs : setJobStatus s.m_jobHistory j.m_jobID .JOB_STATUS_RUNNING with
    | error f => rw [hs] at h; cases h
    | ok h' =>
      rw [hs] at h
      simp only [Except.ok.injEq, Prod.mk.injEq] at h
      exact Or.inr ⟨pre, j, post, h', h.2.symm, hq, fun x hxp => by simpa using hpre x hxp,
        by simpa using hj, hs, by rw [← h.1, hrest]⟩

/-- Only `QueueJob` and `ClaimAJob` write the queued collection. -/
theorem step_keeps_queued {s s' : JobSystem} {op : Op} (h : s.step op = some s')
    (hq : ∀ job, op ≠ .queueJob job) (hc : ∀ w, op ≠ .claimAJob w) :
    s'.m_jobsQueued = s.m_jobsQueued := by
  cases op with
  | queueJob job => exact absurd rfl (hq job)
  | claimAJob w => exact absurd rfl (hc w)
  | onJobCompleted job =>
    rcases OnJobCompleted_effect (step_onJobCompleted h) with rfl | ⟨_, _, _, _, _, rfl⟩ <;> rfl
  | finishCompletedJobs =>
    obtain ⟨ev, hf⟩ := step_finishCompletedJobs h
    obtain ⟨_, _, h', rfl, _, _⟩ := FinishCompletedJobs_returns hf
    rfl
  | finishJob jobID =>
    obtain ⟨ev, hf⟩ := step_finishJob h
    rcases FinishJob_returns hf with rfl | ⟨_, _, _, _, _, _, _, rfl⟩ <;> rfl

/-! ## C11: no job is claimed twice -/

/-- From a state whose queue holds no job twice and none of the jobs still to be
submitted, a run in which no job is submitted twice never returns a job from
two claims, returns only jobs that were queued or submitted, and ends with a
queue of the same kind in which none of the returned jobs is left. -/
theorem claimedJobs_of_run (ops : List Op) :
    ∀ s : JobSystem, s.m_jobsQueued.Nodup → (submittedJobs ops).Nodup →
      (∀ j ∈ s.m_jobsQueued, j ∉ submittedJobs ops) →
      (claimedJobs s ops).Nodup ∧
        (∀ j ∈ claimedJobs s ops, j ∈ s.m_jobsQueued ∨ j ∈ submittedJobs ops) ∧
        ∀ s', s.runOps ops = some s' →
          (∀ j ∈ s'.m_jobsQueued, j ∈ s.m_jobsQueued ∨ j ∈ submittedJobs ops) ∧
            ∀ j ∈ claimedJobs s ops, j ∉ s'.m_jobsQueued := by
  induction ops with
  | nil =>
    intro s _ _ _
    refine ⟨List.nodup_nil, fun j hj => (by cases hj), fun s' hs' => ?_⟩
    simp only [JobSystem.runOps, Option.some.injEq] at hs'
    subst hs'
    exact ⟨fun j hj => Or.inl hj, fun j hj => by cases hj⟩
  | cons op ops ih =>
    intro s hnd hsub hfresh
    cases op with
    | queueJob job =>
      simp only [submittedJobs, List.nodup_cons] at hsub
      have hjq : job ∉ s.m_jobsQueued := fun hj => hfresh job hj (by simp [submittedJobs])
      obtain ⟨h1, h2, h3⟩ := ih (s.QueueJob job)
        (by
          show (s.m_jobsQueued ++ [job]).Nodup
          rw [List.nodup_append]
          exact ⟨hnd, List.nodup_singleton _, fun x hx hx' => hjq (List.mem_singleton.mp hx' ▸ hx)⟩)
        hsub.2
        (by
          intro j hj
          have hj' : j ∈ s.m_jobsQueued ++ [job] := hj
          rcases List.mem_append.mp hj' with hj' | hj'
          · exact fun hm => hfresh j hj' (by simp [submittedJobs, hm])
          · rw [List.mem_singleton.mp hj']; exact hsub.1)
      have hcl : claimedJobs s (.queueJob job :: ops) = claimedJobs (s.QueueJob job) ops := by
        simp [claimedJobs, JobSystem.step]
      have hrun : s.runOps (.queueJob job :: ops) = (s.QueueJob job).runOps ops := by
        simp [JobSystem.runOps, JobSystem.step]
      have hq' : ∀ j, j ∈ (s.QueueJob job).m_jobsQueued ↔ j ∈ s.m_jobsQueued ∨ j = job := by
        intro j
        show j ∈ s.m_jobsQueued ++ [job] ↔ _
        simp
      rw [hcl, hrun]
      refine ⟨h1, fun j hj => ?_, fun s' hs' => ⟨fun j hj => ?_, (h3 s' hs').2⟩⟩
      · rcases h2 j hj with h | h
        · rcases (hq' j).mp h with h | h
          · exact Or.inl h
          · exact Or.inr (by simp [submittedJobs, h])
        · exact Or.inr (by simp [submittedJobs, h])
      · rcases (h3 s' hs').1 j hj with h | h
        · rcases (hq' j).mp h with h | h
          · exact Or.inl h
          · exact Or.inr (by simp [submittedJobs, h])
        · exact Or.inr (by simp [submittedJobs, h])
    | claimAJob w =>
      have hsub' : submittedJobs (.claimAJob w :: ops) = submittedJobs ops := by
        simp [submittedJobs]
      rw [hsub'] at hsub hfresh ⊢
      cases hr : s.ClaimAJob w with
      | error f =>
        have hcl : claimedJobs s (.claimAJob w :: ops) = [] := by simp [claimedJobs, hr]
        have hrun : s.runOps (.claimAJob w :: ops) = none := by
          simp [JobSystem.runOps, JobSystem.step, hr]
        rw [hcl, hrun]
        exact ⟨List.nodup_nil, fun j hj => (by cases hj), fun s' hs' => by cases hs'⟩
      | ok x =>
        obtain ⟨s1, r⟩ := x
        have hrun : s.runOps (.claimAJob w :: ops) = s1.runOps ops := by
          simp [JobSystem.runOps, JobSystem.step, hr]
        rw [hrun]
        rcases ClaimAJob_returns hr with ⟨rfl, rfl, _⟩ | ⟨pre, j, post, h', rfl, hq, _, _, _, rfl⟩
        · have hcl : claimedJobs s1 (.claimAJob w :: ops) = claimedJobs s1 ops := by
            simp [claimedJobs, hr]
          rw [hcl]
          exact ih s1 hnd hsub hfresh
        · have hcl : claimedJobs s (.claimAJob w :: ops) =
              j :: claimedJobs { s with
                m_jobsQueued := pre ++ post,
                m_jobsRunning := s.m_jobsRunning ++ [j],
                m_jobHistory := h' } ops := by
            simp [claimedJobs, hr]
          rw [hcl]
          rw [hq] at hnd hfresh
          have hmid := List.nodup_middle.mp hnd
          rw [List.nodup_cons] at hmid
          obtain ⟨h1, h2, h3⟩ := ih { s with
              m_jobsQueued := pre ++ post,
              m_jobsRunning := s.m_jobsRunning ++ [j],
              m_jobHistory := h' } hmid.2 hsub
            (fun x hx => hfresh x (by
              have hx' : x ∈ pre ++ post := hx
              simp only [List.mem_append, List.mem_cons] at hx' ⊢
              tauto))
          have hjsub : j ∉ submittedJobs ops := hfresh j (by simp)
          have hsubset : ∀ x, x ∈ pre ++ post → x ∈ s.m_jobsQueued := by
            intro x hx
            rw [hq]
            simp only [List.mem_append, List.mem_cons] at hx ⊢
            tauto
          refine ⟨?_, ?_, fun s' hs' => ⟨?_, ?_⟩⟩
          · rw [List.nodup_cons]
            refine ⟨fun hj => ?_, h1⟩
            rcases h2 j hj with h | h
            · exact hmid.1 h
            · exact hjsub h
          · intro x hx
            rcases List.mem_cons.mp hx with rfl | hx
            · exact Or.inl (by rw [hq]; simp)
            · rcases h2 x hx with h | h
              · exact Or.inl (hsubset x h)
              · exact Or.inr h
          · intro x hx
            rcases (h3 s' hs').1 x hx with h | h
            · exact Or.inl (hsubset x h)
            · exact Or.inr h
          · intro x hx
            rcases List.mem_cons.mp hx with rfl | hx
            · intro hin
              rcases (h3 s' hs').1 x hin with h | h
              · exact hmid.1 h
              · exact hjsub h
            · exact (h3 s' hs').2 x hx
    | onJobCompleted job =>
      have hsub' : submittedJobs (.onJobCompleted job :: ops) = submittedJobs ops := by
        simp [submittedJobs]
      rw [hsub'] at hsub hfresh ⊢
      cases hst : s.step (.onJobCompleted job) with
      | none =>
        have hcl : claimedJobs s (.onJobCompleted job :: ops) = [] := by simp [claimedJobs, hst]
        have hrun : s.runOps (.onJobCompleted job :: ops) = none := by
          simp [JobSystem.runOps, hst]
        rw [hcl, hrun]
        exact ⟨List.nodup_nil, fun j hj => (by cases hj), fun s' hs' => by cases hs'⟩
      | some s1 =>
        have hcl : claimedJobs s (.onJobCompleted job :: ops) = claimedJobs s1 ops := by
          simp [claimedJobs, hst]
        have hrun : s.runOps (.onJobCompleted job :: ops) = s1.runOps ops := by
          simp [JobSystem.runOps, hst]
        have hq := step_keeps_queued hst (fun _ h => by cases h) (fun _ h => by cases h)
        rw [hcl, hrun, ← hq]
        exact ih s1 (hq ▸ hnd) hsub (hq ▸ hfresh)
    | finishCompletedJobs =>
      have hsub' : submittedJobs (.finishCompletedJobs :: ops) = submittedJobs ops := by
        simp [submittedJobs]
      rw [hsub'] at hsub hfresh ⊢
      cases hst : s.step .finishCompletedJobs with
      | none =>
        have hcl : claimedJobs s (.finishCompletedJobs :: ops) = [] := by simp [claimedJobs, hst]
        have hrun : s.runOps (.finishCompletedJobs :: ops) = none := by
          simp [JobSystem.runOps, hst]
        rw [hcl, hrun]
        exact ⟨List.nodup_nil, fun j hj => (by cases hj), fun s' hs' => by cases hs'⟩
      | some s1 =>
        have hcl : claimedJobs s (.finishCompletedJobs :: ops) = claimedJobs s1 ops := by
          simp [claimedJobs, hst]
        have hrun : s.runOps (.finishCompletedJobs :: ops) = s1.runOps ops := by
          simp [JobSystem.runOps, hst]
        have hq := step_keeps_queued hst (fun _ h => by cases h) (fun _ h => by cases h)
        rw [hcl, hrun, ← hq]
        exact ih s1 (hq ▸ hnd) hsub (hq ▸ hfresh)
    | finishJob jobID =>
      have hsub' : submittedJobs (.finishJob jobID :: ops) = submittedJobs ops := by
        simp [submittedJobs]
      rw [hsub'] at hsub hfresh ⊢
      cases hst : s.step (.finishJob jobID) with
      | none =>
        have hcl : claimedJobs s (.finishJob jobID :: ops) = [] := by simp [claimedJobs, hst]
        have hrun : s.runOps (.finishJob jobID :: ops) = none := by
          simp [JobSystem.runOps, hst]
        rw [hcl, hrun]
        exact ⟨List.nodup_nil, fun j hj => (by cases hj), fun s' hs' => by cases hs'⟩
      | some s1 =>
        have hcl : claimedJobs s (.finishJob jobID :: ops) = claimedJobs s1 ops := by
          simp [claimedJobs, hst]
        have hrun : s.runOps (.finishJob jobID :: ops) = s1.runOps ops := by
          simp [JobSystem.runOps, hst]
        have hq := step_keeps_queued hst (fun _ h => by cases h) (fun _ h => by cases h)
        rw [hcl, hrun, ← hq]
        exact ih s1 (hq ▸ hnd) hsub (hq ▸ hfresh)

/-- C11: in every sequence of coordinator calls made from the empty system in which
no job is handed to `QueueJob` twice, no job is returned by two `ClaimAJob`
calls, and a job that was returned is not in the queued collection at the end of
the sequence (so, the sequence being any, at no later point). -/
theorem no_job_claimed_twice (ops : List Op) (hsub : (submittedJobs ops).Nodup) :
    (claimedJobs emptySystem ops).Nodup ∧
      ∀ s', emptySystem.runOps ops = some s' →
        ∀ j ∈ claimedJobs emptySystem ops, j ∉ s'.m_jobsQueued := by
  obtain ⟨h1, _, h3⟩ := claimedJobs_of_run ops emptySystem List.nodup_nil hsub
    (fun j hj => by cases hj)
  exact ⟨h1, fun s' hs' => (h3 s' hs').2⟩

/-- C11 at an input: two jobs are submitted and a worker of mask 1 claims three
times. -/
theorem no_job_claimed_twice_witness :
    (claimedJobs emptySystem twoJobsThreeClaims).Nodup ∧
      ∀ s', emptySystem.runOps twoJobsThreeClaims = some s' →
        ∀ j ∈ claimedJobs emptySystem twoJobsThreeClaims, j ∉ s'.m_jobsQueued :=
  no_job_claimed_twice twoJobsThreeClaims (by decide)

/-! ## C12: masks with all bits set -/

/-- C12 as stated fails, in three ways, for masks of 32 and of 64 bits alike: the
only queued job has all bits set and a history entry, yet a worker of mask 0 is
returned no job; the only queued job has mask 0 and a history entry, yet a
worker with all bits set is returned no job; and the only queued job has all
bits set but was submitted out of sequence, so that claiming it writes
`m_jobHistory[1]` past the end of the one-entry table. -/
theorem ClaimAJob_all_bits_not_always_returned :
    allBitsSet 32 = 0xFFFFFFFF ∧
      allBitsQueue.ClaimAJob 0x0 = .ok (allBitsQueue, none) ∧
      (emptySystem.QueueJob ⟨0, allBitsSet 64, -1⟩).ClaimAJob 0x0 =
        .ok (emptySystem.QueueJob ⟨0, allBitsSet 64, -1⟩, none) ∧
      noBitsQueue.ClaimAJob (allBitsSet 32) = .ok (noBitsQueue, none) ∧
      noBitsQueue.ClaimAJob (allBitsSet 64) = .ok (noBitsQueue, none) ∧
      allBitsOutOfSequence.ClaimAJob 0x1 = .error .outOfBounds := by
  decide

/-- C12, amended: masks being `unsigned long`s of `width` bits, when `job` is the
only queued job and has a history entry at its id, `ClaimAJob(w)` returns it
for every non-zero worker mask `w` if the mask of the job has all bits set, and
`ClaimAJob(all-bits-set)` returns it if its mask is not zero. -/
theorem ClaimAJob_all_bits_convention (width : Nat) (s : JobSystem) (job : Job) (w : Nat)
    (honly : s.m_jobsQueued = [job])
    (hentry : 0 ≤ job.m_jobID ∧ job.m_jobID < s.m_jobHistory.length) :
    (job.m_jobChannels = allBitsSet width → 0 < w → w < 2 ^ width →
        ∃ s', s.ClaimAJob w = .ok (s', some job)) ∧
      (w = allBitsSet width → 0 < job.m_jobChannels → job.m_jobChannels < 2 ^ width →
        ∃ s', s.ClaimAJob w = .ok (s', some job)) := by
  have hclaim : job.m_jobChannels &&& w ≠ 0 → ∃ s', s.ClaimAJob w = .ok (s', some job) := by
    intro hm
    have hx : extractFirst (fun q : Job => decide (q.m_jobChannels &&& w ≠ 0)) s.m_jobsQueued =
        some (job, [] ++ []) :=
      (extractFirst_some_iff _ _ _ _).mpr
        ⟨[], [], (by simpa using honly), fun x hx => (by cases hx), (by simpa using hm), rfl⟩
    obtain ⟨e, he⟩ := historyAt_of_lt hentry.1 hentry.2
    exact ⟨_, by rw [ClaimAJob_of_match hx, setJobStatus_of_entry he]⟩
  constructor
  · intro hall h0 hlt
    apply hclaim
    rw [hall, allBitsSet, Nat.and_comm, Nat.and_pow_two_sub_one_of_lt_two_pow hlt]
    omega
  · intro hall h0 hlt
    apply hclaim
    rw [hall, allBitsSet, Nat.and_pow_two_sub_one_of_lt_two_pow hlt]
    omega

/-- C12 at two inputs, for 32-bit masks: the job with the default mask of
`RenderJob` is returned to a worker of mask 0x1, and `job0`, of mask 0x1, is
returned to a worker with all bits set. -/
theorem ClaimAJob_all_bits_convention_witness :
    (∃ s', allBitsQueue.ClaimAJob 0x1 = .ok (s', some ⟨0, 0xFFFFFFFF, -1⟩)) ∧
      ∃ s', oneQueuedJob.ClaimAJob (allBitsSet 32) = .ok (s', some job0) :=
  ⟨(ClaimAJob_all_bits_convention 32 allBitsQueue ⟨0, 0xFFFFFFFF, -1⟩ 0x1 (by decide)
      (by decide)).1 (by decide) (by decide) (by decide),
   (ClaimAJob_all_bits_convention 32 oneQueuedJob job0 (allBitsSet 32) (by decide)
      (by decide)).2 rfl (by decide) (by decide)⟩

/-! ## C13: a completion report for a job that is not running -/

/-- C13 fails on the code: `job0` is not in the running collection of the empty
system, and `OnJobCompleted(job0)` returns as it does on success, with no event
and no fault; the state differs only in the call counter `totalJobs`.  The
second half is the successful call, for comparison. -/
theorem OnJobCompleted_not_running_is_silent :
    job0 ∉ emptySystem.m_jobsRunning ∧
      emptySystem.OnJobCompleted job0 = .ok { emptySystem with totalJobs := 1 } ∧
      emptySystem.perform (.onJobCompleted job0) =
        .ok ({ emptySystem with totalJobs := 1 }, []) ∧
      oneRunningJob.perform (.onJobCompleted job0) = .ok (oneCompletedJob, []) := by
  decide

/-! ## C14: `QueueJob` writes the history table and the queue, nothing else -/

/-- C14: for every state and every job, after `QueueJob(job)` the queued collection
is the old one with `job` appended at the back, the history table is the old one
with the one entry (type of `job`, QUEUED) appended, every entry that was there
is unchanged, running, completed, the worker registry and the call counter are
unchanged, and the call emits no event: neither `Execute` nor
`JobCompleteCallback` of any job is invoked. -/
theorem QueueJob_two_writes (s : JobSystem) (job : Job) :
    (s.QueueJob job).m_jobsQueued = s.m_jobsQueued ++ [job] ∧
      (s.QueueJob job).m_jobHistory =
        s.m_jobHistory ++ [⟨job.m_jobType, .JOB_STATUS_QUEUED⟩] ∧
      (∀ i e, historyAt s.m_jobHistory i = .ok e →
        historyAt (s.QueueJob job).m_jobHistory i = .ok e) ∧
      (s.QueueJob job).m_jobsRunning = s.m_jobsRunning ∧
      (s.QueueJob job).m_jobsCompleted = s.m_jobsCompleted ∧
      (s.QueueJob job).m_workerThreads = s.m_workerThreads ∧
      (s.QueueJob job).totalJobs = s.totalJobs ∧
      s.perform (.queueJob job) = .ok (s.QueueJob job, []) := by
  refine ⟨rfl, rfl, fun i e he => ?_, rfl, rfl, rfl, rfl, rfl⟩
  have hlt := (historyAt_ok_lt he).2
  simp only [JobSystem.QueueJob]
  rw [historyAt_concat, if_neg (by omega)]
  exact he

/-! ## C15: `FinishJob` when the job is not in the completed collection -/

/-- In any state, when the status of the id reads QUEUED or RUNNING and no job of
that id is in the completed collection, `FinishJob` prints the message of line
166 and then calls `JobCompleteCallback` through the null pointer. -/
theorem FinishJob_not_found {s : JobSystem} {jobID : Int} {st : JobStatus}
    (hg : s.GetJobStatus jobID = .ok st)
    (hst : st = .JOB_STATUS_QUEUED ∨ st = .JOB_STATUS_RUNNING)
    (hno : ∀ c ∈ s.m_jobsCompleted, c.m_jobID ≠ jobID) :
    s.FinishJob jobID = .error (.nullDeref, [.errorNotInCompletedList jobID]) := by
  have hx : extractFirst (fun c : Job => decide (c.m_jobID = jobID)) s.m_jobsCompleted = none := by
    rw [extractFirst_none_iff]
    intro c hc
    simpa using hno c hc
  unfold JobSystem.FinishJob
  rw [finishJobLoop_pending hg (by rcases hst with rfl | rfl <;> decide)
    (by rcases hst with rfl | rfl <;> decide), hx]
  rfl

/-- In a state that satisfies the invariant, `FinishJob` on an id whose status reads
QUEUED or RUNNING always ends in the call through the null pointer. -/
theorem FinishJob_pending_of_consistent {s : JobSystem} {jobID : Int} {st : JobStatus}
    (hc : s.Consistent) (hg : s.GetJobStatus jobID = .ok st)
    (hst : st = .JOB_STATUS_QUEUED ∨ st = .JOB_STATUS_RUNNING) :
    s.FinishJob jobID = .error (.nullDeref, [.errorNotInCompletedList jobID]) := by
  refine FinishJob_not_found hg hst (fun c hcm hci => ?_)
  have hrec : recordsStatus s.m_jobHistory jobID .JOB_STATUS_COMPLETED :=
    (hc.completed _).mp (hci ▸ mem_jobIDs_of_mem hcm)
  rcases GetJobStatus_ok_iff.mp hg with ⟨_, h1⟩ | ⟨_, e, he, hes⟩
  · rcases hst with rfl | rfl <;> cases h1
  · have := recordsStatus_unique ⟨e, he, hes⟩ hrec
    rcases hst with rfl | rfl <;> cases this

/-- C15 fails on the code: after `job0` was submitted its status is QUEUED, after it
was claimed its status is RUNNING; both states are reachable, so they satisfy the
invariant, and in both `FinishJob(0)` does not find the job in the completed
collection, prints the error of line 166 and goes on to call
`JobCompleteCallback` through the null pointer of line 169. -/
theorem FinishJob_calls_through_null_pointer :
    emptySystem.step (.queueJob job0) = some oneQueuedJob ∧
      oneQueuedJob.step (.claimAJob 0x1) = some oneRunningJob ∧
      oneQueuedJob.GetJobStatus 0 = .ok .JOB_STATUS_QUEUED ∧
      oneQueuedJob.FinishJob 0 = .error (.nullDeref, [.errorNotInCompletedList 0]) ∧
      oneRunningJob.GetJobStatus 0 = .ok .JOB_STATUS_RUNNING ∧
      oneRunningJob.FinishJob 0 = .error (.nullDeref, [.errorNotInCompletedList 0]) := by
  decide

/-! ## C16: the history table only grows -/

/-- When the size of the history table is `2^32`, its conversion to `int` in line
106 is zero and `GetJobStatus` returns NEVER_SEEN for every id. -/
theorem GetJobStatus_of_wrapped_size {s : JobSystem} (h : s.m_jobHistory.length = 2 ^ 32)
    (i : Int) : s.GetJobStatus i = .ok .JOB_STATUS_NEVER_SEEN := by
  unfold JobSystem.GetJobStatus
  rw [h, if_neg (by decide)]

/-- C18: for every registry and every name.  When the registry is
`pre ++ doomed :: post`, no worker of `pre` has the name and `doomed` has it,
`DestroyWorkerThread(name)` leaves the registry `pre ++ post` (and the rest of
the state as it was) and shuts down and deletes `doomed`, no other worker.  When
no registered worker has the name it leaves the state unchanged and shuts down
no worker. -/
theorem DestroyWorkerThread_removes_first (s : JobSystem) (uniqueName : String) :
    (∀ pre doomed post, s.m_workerThreads = pre ++ doomed :: post →
        (∀ x ∈ pre, x.m_uniqueName ≠ uniqueName) → doomed.m_uniqueName = uniqueName →
        s.DestroyWorkerThread uniqueName =
          ({ s with m_workerThreads := pre ++ post }, [.shutDown doomed, .deleted doomed])) ∧
      ((∀ x ∈ s.m_workerThreads, x.m_uniqueName ≠ uniqueName) →
        s.DestroyWorkerThread uniqueName = (s, [])) := by
  constructor
  · intro pre doomed post hreg hpre hname
    have hx : extractFirst (fun worker : JobWorkerThread =>
        decide (worker.m_uniqueName = uniqueName)) s.m_workerThreads =
          some (doomed, pre ++ post) :=
      (extractFirst_some_iff _ _ _ _).mpr
        ⟨pre, post, hreg, fun x hxp => (by simpa using hpre x hxp), (by simpa using hname), rfl⟩
    unfold JobSystem.DestroyWorkerThread
    rw [hx]
  · intro hnone
    have hx : extractFirst (fun worker : JobWorkerThread =>
        decide (worker.m_uniqueName = uniqueName)) s.m_workerThreads = none := by
      rw [extractFirst_none_iff]
      intro x hxm
      simpa using hnone x hxm
    unfold JobSystem.DestroyWorkerThread
    rw [hx]

/-- C18 at inputs: from the registry "io", "render", "io", destroying "render"
removes the middle worker, destroying "io" removes the first of the two, and
destroying "audio" changes nothing. -/
theorem DestroyWorkerThread_removes_first_witness :
    threeWorkers.DestroyWorkerThread "render" =
        ({ threeWorkers with m_workerThreads := [⟨"io", 0x2, false⟩] ++ [⟨"io", 0x4, false⟩] },
          [.shutDown renderWorker, .deleted renderWorker]) ∧
      threeWorkers.DestroyWorkerThread "io" =
        ({ threeWorkers with m_workerThreads := [] ++ [renderWorker, ⟨"io", 0x4, false⟩] },
          [.shutDown ⟨"io", 0x2, false⟩, .deleted ⟨"io", 0x2, false⟩]) ∧
      threeWorkers.DestroyWorkerThread "audio" = (threeWorkers, []) :=
  ⟨(DestroyWorkerThread_removes_first threeWorkers "render").1
      [⟨"io", 0x2, false⟩] renderWorker [⟨"io", 0x4, false⟩] (by decide) (by decide) (by decide),
   (DestroyWorkerThread_removes_first threeWorkers "io").1
      [] ⟨"io", 0x2, false⟩ [renderWorker, ⟨"io", 0x4, false⟩] (by decide) (by decide)
      (by decide),
   (DestroyWorkerThread_removes_first threeWorkers "audio").2 (by decide)⟩

/-! ## C19: reaping twice -/

/-- C19: for every state in which `FinishCompletedJobs` returns, a second call made
right after returns too, invokes no completion callback and leaves the state,
queued, running, completed and history included, exactly as the first call
left it. -/
theorem FinishCompletedJobs_twice (s s1 : JobSystem) (ev : List Event)
    (h : s.FinishCompletedJobs = .ok (s1, ev)) :
    s1.FinishCompletedJobs = .ok (s1, []) := by
  obtain ⟨_, _, h', rfl, _, _⟩ := FinishCompletedJobs_returns h
  rfl

/-- C19 at an input: the state with `job0` completed. -/
theorem FinishCompletedJobs_twice_witness :
    ({ emptySystem with m_jobHistory := [⟨-1, .JOB_STATUS_RETIRED⟩], totalJobs := 1 } :
        JobSystem).FinishCompletedJobs =
      .ok ({ emptySystem with m_jobHistory := [⟨-1, .JOB_STATUS_RETIRED⟩], totalJobs := 1 },
        []) :=
  FinishCompletedJobs_twice oneCompletedJob _ [.jobCompleteCallback job0] (by decide)

/-! ## C20: the order in which the mutexes are taken -/

theorem ClaimAJobLocks_cases (s : JobSystem) (w : Nat) :
    ClaimAJobLocks s w =
        [.lock .queued, .lock .running, .lock .history, .unlock .history,
          .unlock .running, .unlock .queued] ∨
      ClaimAJobLocks s w = [.lock .queued, .lock .running, .unlock .running, .unlock .queued] := by
  unfold ClaimAJobLocks
  cases extractFirst (fun queuedJob : Job => decide (queuedJob.m_jobChannels &&& w ≠ 0))
    s.m_jobsQueued
  · exact Or.inr rfl
  · exact Or.inl rfl

theorem OnJobCompletedLocks_cases (s : JobSystem) (job : Job) :
    OnJobCompletedLocks s job =
        [.lock .completed, .lock .running, .lock .history, .unlock .history,
          .unlock .completed, .unlock .running] ∨
      OnJobCompletedLocks s job =
        [.lock .completed, .lock .running, .unlock .completed, .unlock .running] := by
  unfold OnJobCompletedLocks
  cases extractFirst (fun running : Job => decide (job = running)) s.m_jobsRunning
  · exact Or.inr rfl
  · exact Or.inl rfl

/-- C20 as stated fails: `OnJobCompleted` holds two mutexes at a time and takes the
running mutex (line 183) while holding the completed mutex (line 182), which
comes later in the order queued, running, completed, history. -/
theorem OnJobCompleted_locks_against_spec_order :
    2 ≤ maxHeld [] (OnJobCompletedLocks emptySystem job0) ∧
      (OnJobCompletedLocks emptySystem job0).take 2 = [.lock .completed, .lock .running] ∧
      respectsOrder specLockOrder [] (OnJobCompletedLocks emptySystem job0) = false ∧
      respectsOrder specLockOrder [] (OnJobCompletedLocks oneRunningJob job0) = false := by
  decide

/-- C20, amended: `QueueJob`, `ClaimAJob` and `OnJobCompleted` each hold more than
one job-state mutex at a time, and each takes its mutexes in an order consistent
with the single fixed order queued, completed, running, history: in every state
and for every argument, none of them takes a mutex that does not come later in
that order than every mutex it holds.  `QueueJob` and `ClaimAJob` also follow
the order queued, running, completed, history. -/
theorem coordinator_locks_follow_one_order (s : JobSystem) (job : Job) (w : Nat) :
    2 ≤ maxHeld [] QueueJobLocks ∧
      2 ≤ maxHeld [] (ClaimAJobLocks s w) ∧
      2 ≤ maxHeld [] (OnJobCompletedLocks s job) ∧
      respectsOrder codeLockOrder [] QueueJobLocks = true ∧
      respectsOrder codeLockOrder [] (ClaimAJobLocks s w) = true ∧
      respectsOrder codeLockOrder [] (OnJobCompletedLocks s job) = true ∧
      respectsOrder specLockOrder [] QueueJobLocks = true ∧
      respectsOrder specLockOrder [] (ClaimAJobLocks s w) = true := by
  refine ⟨by decide, ?_, ?_, by decide, ?_, ?_, by decide, ?_⟩
  · rcases ClaimAJobLocks_cases s w with h | h <;> rw [h] <;> decide
  · rcases OnJobCompletedLocks_cases s job with h | h <;> rw [h] <;> decide
  · rcases ClaimAJobLocks_cases s w with h | h <;> rw [h] <;> decide
  · rcases OnJobCompletedLocks_cases s job with h | h <;> rw [h] <;> decide
  · rcases ClaimAJobLocks_cases s w with h | h <;> rw [h] <;> decide

/-! ## The jobs held by running and completed have history entries -/

/-- A returning call keeps the property that every job of the running and the
completed collection has a history entry at its id: a job enters running only
in `ClaimAJob`, which has then written the table at its id, and the table never
shrinks.  Nothing is asked of the ids that are submitted. -/
theorem step_held_entries {s s' : JobSystem} {op : Op} (h : s.step op = some s')
    (hs : ∀ j, j ∈ s.m_jobsRunning ∨ j ∈ s.m_jobsCompleted →
      0 ≤ j.m_jobID ∧ j.m_jobID < s.m_jobHistory.length) :
    ∀ j, j ∈ s'.m_jobsRunning ∨ j ∈ s'.m_jobsCompleted →
      0 ≤ j.m_jobID ∧ j.m_jobID < s'.m_jobHistory.length := by
  cases op with
  | queueJob job =>
    rw [step_queueJob h]
    intro j hj
    have := hs j hj
    simp only [JobSystem.QueueJob, List.length_append, List.length_singleton]
    push_cast
    omega
  | claimAJob w =>
    obtain ⟨r, hcl⟩ := step_claimAJob h
    rcases ClaimAJob_effect hcl with rfl | ⟨pre, j0, post, h', hq, hst, rfl⟩
    · exact hs
    intro j hj
    simp only [List.mem_append, List.mem_singleton] at hj
    rw [show h'.length = s.m_jobHistory.length from setJobStatus_length hst]
    rcases hj with (hj | rfl) | hj
    · exact hs j (Or.inl hj)
    · obtain ⟨e, he, _⟩ := setJobStatus_ok_iff.mp hst
      exact historyAt_ok_lt he
    · exact hs j (Or.inr hj)
  | onJobCompleted job =>
    rcases OnJobCompleted_effect (step_onJobCompleted h) with rfl | ⟨pre, post, h', hq, hst, rfl⟩
    · exact hs
    intro j hj
    simp only [List.mem_append, List.mem_singleton] at hj
    rw [show h'.length = s.m_jobHistory.length from setJobStatus_length hst]
    rcases hj with (hj | hj) | (hj | rfl)
    · exact hs j (Or.inl (by rw [hq]; simp [hj]))
    · exact hs j (Or.inl (by rw [hq]; simp [hj]))
    · exact hs j (Or.inr hj)
    · exact hs j (Or.inl (by rw [hq]; simp))
  | finishCompletedJobs =>
    obtain ⟨ev, hf⟩ := step_finishCompletedJobs h
    obtain ⟨_, _, h', rfl, hlen, _⟩ := FinishCompletedJobs_returns hf
    intro j hj
    rw [show h'.length = s.m_jobHistory.length from hlen]
    rcases hj with hj | hj
    · exact hs j (Or.inl hj)
    · cases hj
  | finishJob jobID =>
    obtain ⟨ev, hf⟩ := step_finishJob h
    rcases FinishJob_returns hf with rfl | ⟨pre, c, post, h', hq, hci, hst, rfl⟩
    · exact hs
    intro j hj
    rw [show h'.length = s.m_jobHistory.length from setJobStatus_length hst]
    rcases hj with hj | hj
    · exact hs j (Or.inl hj)
    · refine hs j (Or.inr ?_)
      rw [hq]
      simp only [List.mem_append, List.mem_cons] at hj ⊢
      tauto

/-- In every state that a sequence of calls leads to from the empty system, in
sequence or not, every job of the running and the completed collection has a
history entry at its id. -/
theorem runOps_held_entries (ops : List Op) :
    ∀ s s' : JobSystem,
      (∀ j, j ∈ s.m_jobsRunning ∨ j ∈ s.m_jobsCompleted →
        0 ≤ j.m_jobID ∧ j.m_jobID < s.m_jobHistory.length) →
      s.runOps ops = some s' →
      ∀ j, j ∈ s'.m_jobsRunning ∨ j ∈ s'.m_jobsCompleted →
        0 ≤ j.m_jobID ∧ j.m_jobID < s'.m_jobHistory.length := by
  induction ops with
  | nil =>
    intro s s' hs h
    simp only [JobSystem.runOps, Option.some.injEq] at h
    rw [← h]
    exact hs
  | cons op rest ih =>
    intro s s' hs h
    simp only [JobSystem.runOps] at h
    cases hstep : s.step op with
    | none => rw [hstep] at h; cases h
    | some s1 =>
      rw [hstep] at h
      exact ih s1 s' (step_held_entries hstep hs) h

theorem held_entries_of_run {s : JobSystem} (h : ∃ ops, emptySystem.runOps ops = some s) :
    ∀ j, j ∈ s.m_jobsRunning ∨ j ∈ s.m_jobsCompleted →
      0 ≤ j.m_jobID ∧ j.m_jobID < s.m_jobHistory.length := by
  obtain ⟨ops, hops⟩ := h
  exact runOps_held_entries ops emptySystem s
    (fun j hj => by rcases hj with hj | hj <;> cases hj) hops

/-! ## C6: the background reaper -/

/-- C6: for every state that a sequence of calls leads to from the empty system, and
more generally for every state in which each job of the completed collection has
a history entry at its id, one call of `FinishCompletedJobs` returns, leaves the
completed collection empty, invokes `JobCompleteCallback` once per job of the old
completed collection, in arrival order, and nothing else, sets the status of each
of those jobs to RETIRED, and leaves queued, running, every other history entry
and the size of the table unchanged. -/
theorem FinishCompletedJobs_retires_all (s : JobSystem)
    (h : (∃ ops, emptySystem.runOps ops = some s) ∨
      ∀ j ∈ s.m_jobsCompleted, 0 ≤ j.m_jobID ∧ j.m_jobID < s.m_jobHistory.length) :
    ∃ s', s.FinishCompletedJobs =
        .ok (s', s.m_jobsCompleted.map Event.jobCompleteCallback) ∧
      s'.m_jobsCompleted = [] ∧
      s'.m_jobsQueued = s.m_jobsQueued ∧
      s'.m_jobsRunning = s.m_jobsRunning ∧
      (∀ j ∈ s.m_jobsCompleted, ∃ e, historyAt s.m_jobHistory j.m_jobID = .ok e ∧
        historyAt s'.m_jobHistory j.m_jobID = .ok { e with m_jobStatus := .JOB_STATUS_RETIRED }) ∧
      (∀ k, (∀ j ∈ s.m_jobsCompleted, j.m_jobID ≠ k) →
        historyAt s'.m_jobHistory k = historyAt s.m_jobHistory k) ∧
      s'.m_jobHistory.length = s.m_jobHistory.length := by
  have hentry : ∀ j ∈ s.m_jobsCompleted,
      0 ≤ j.m_jobID ∧ j.m_jobID < s.m_jobHistory.length := by
    rcases h with h | h
    · exact fun j hj => held_entries_of_run h j (Or.inr hj)
    · exact h
  obtain ⟨h', hrun, hlen, hent⟩ :=
    finishCompletedLoop_ok s.m_jobsCompleted { s with m_jobsCompleted := [] } [] hentry
  refine ⟨{ s with m_jobsCompleted := [], m_jobHistory := h' },
    by simpa [JobSystem.FinishCompletedJobs] using hrun, rfl, rfl, rfl, ?_, ?_, hlen⟩
  · intro j hj
    obtain ⟨h0, hlt⟩ := hentry j hj
    obtain ⟨e, he⟩ := historyAt_of_lt h0 hlt
    refine ⟨e, he, ?_⟩
    have := hent j.m_jobID e he
    rw [if_pos (List.mem_map_of_mem _ hj)] at this
    exact this
  · intro k hk
    have hnot : k ∉ s.m_jobsCompleted.map Job.m_jobID := by
      intro hmem
      obtain ⟨j, hj, hjk⟩ := List.mem_map.mp hmem
      exact hk j hj hjk
    cases hh : historyAt s.m_jobHistory k with
    | ok e =>
      have := hent k e hh
      rw [if_neg hnot] at this
      exact this
    | error f =>
      have := @historyAt_eq_of_length s.m_jobHistory h' k hlen
        (fun e he => by rw [hh] at he; cases he)
      rw [← hh]
      exact this

/-- C6 at an input: the state after three submissions of which `job1` and then
`job0` completed; the callbacks are those of `job1` and `job0`, in that order. -/
theorem FinishCompletedJobs_retires_all_witness :
    ∃ s', twoCompletedJobs.FinishCompletedJobs =
        .ok (s', [.jobCompleteCallback job1, .jobCompleteCallback job0]) ∧
      s'.m_jobsCompleted = [] ∧
      s'.m_jobsQueued = twoCompletedJobs.m_jobsQueued ∧
      s'.m_jobsRunning = twoCompletedJobs.m_jobsRunning ∧
      (∀ j ∈ twoCompletedJobs.m_jobsCompleted,
        ∃ e, historyAt twoCompletedJobs.m_jobHistory j.m_jobID = .ok e ∧
          historyAt s'.m_jobHistory j.m_jobID =
            .ok { e with m_jobStatus := .JOB_STATUS_RETIRED }) ∧
      (∀ k, (∀ j ∈ twoCompletedJobs.m_jobsCompleted, j.m_jobID ≠ k) →
        historyAt s'.m_jobHistory k = historyAt twoCompletedJobs.m_jobHistory k) ∧
      s'.m_jobHistory.length = twoCompletedJobs.m_jobHistory.length :=
  FinishCompletedJobs_retires_all twoCompletedJobs (Or.inl ⟨completeTwoOfThree, by decide⟩)

/-! ## C7: a worker reports completion -/

/-- C7: for every state that a sequence of calls leads to from the empty system, and
more generally for every state in which the job has a history entry at its id,
and for every job that is present in the running collection, `OnJobCompleted(job)`
returns, removes the job (its first occurrence) from running, the other running
jobs keeping their order, appends it at the back of completed, sets its history
entry to COMPLETED, and leaves the queued collection, every other history entry
and the size of the table unchanged. -/
theorem OnJobCompleted_moves_running_job (s : JobSystem) (job : Job)
    (hrun : job ∈ s.m_jobsRunning)
    (h : (∃ ops, emptySystem.runOps ops = some s) ∨
      (0 ≤ job.m_jobID ∧ job.m_jobID < s.m_jobHistory.length)) :
    ∃ s', s.OnJobCompleted job = .ok s' ∧
      s'.m_jobsRunning = s.m_jobsRunning.erase job ∧
      s'.m_jobsCompleted = s.m_jobsCompleted ++ [job] ∧
      s'.m_jobsQueued = s.m_jobsQueued ∧
      (∃ e, historyAt s.m_jobHistory job.m_jobID = .ok e ∧
        historyAt s'.m_jobHistory job.m_jobID =
          .ok { e with m_jobStatus := .JOB_STATUS_COMPLETED }) ∧
      (∀ k, k ≠ job.m_jobID → historyAt s'.m_jobHistory k = historyAt s.m_jobHistory k) ∧
      s'.m_jobHistory.length = s.m_jobHistory.length := by
  have hentry : 0 ≤ job.m_jobID ∧ job.m_jobID < s.m_jobHistory.length := by
    rcases h with h | h
    · exact held_entries_of_run h job (Or.inl hrun)
    · exact h
  obtain ⟨e, he⟩ := historyAt_of_lt hentry.1 hentry.2
  have hs := setJobStatus_of_entry he .JOB_STATUS_COMPLETED
  refine ⟨{ s with
      totalJobs := s.totalJobs + 1,
      m_jobsRunning := s.m_jobsRunning.erase job,
      m_jobsCompleted := s.m_jobsCompleted ++ [job],
      m_jobHistory := s.m_jobHistory.set job.m_jobID.toNat
        { e with m_jobStatus := .JOB_STATUS_COMPLETED } },
    by rw [OnJobCompleted_of_running hrun, hs], rfl, rfl, rfl, ?_, ?_, ?_⟩
  · obtain ⟨e', he', hnew⟩ := historyAt_setJobStatus_same hs
    exact ⟨e', he', hnew⟩
  · intro k hk
    exact historyAt_setJobStatus_other hs hk
  · exact setJobStatus_length hs

/-- C7 at an input: `job0` and `job1` running, `job0` reported completed; `job1`
stays in running. -/
theorem OnJobCompleted_moves_running_job_witness :
    ∃ s', twoRunningJobs.OnJobCompleted job0 = .ok s' ∧
      s'.m_jobsRunning = [job1] ∧
      s'.m_jobsCompleted = twoRunningJobs.m_jobsCompleted ++ [job0] ∧
      s'.m_jobsQueued = twoRunningJobs.m_jobsQueued ∧
      (∃ e, historyAt twoRunningJobs.m_jobHistory job0.m_jobID = .ok e ∧
        historyAt s'.m_jobHistory job0.m_jobID =
          .ok { e with m_jobStatus := .JOB_STATUS_COMPLETED }) ∧
      (∀ k, k ≠ job0.m_jobID →
        historyAt s'.m_jobHistory k = historyAt twoRunningJobs.m_jobHistory k) ∧
      s'.m_jobHistory.length = twoRunningJobs.m_jobHistory.length :=
  OnJobCompleted_moves_running_job twoRunningJobs job0 (by decide)
    (Or.inl ⟨claimTwo, by decide⟩)

/-! ## C8: `FinishJob` on an id that cannot complete -/

theorem GetJobStatusReading_nothingPastEnd (s : JobSystem) (i : Int) :
    s.GetJobStatusReading nothingPastEnd i = s.GetJobStatus i := by
  unfold JobSystem.GetJobStatusReading JobSystem.GetJobStatus
  split
  · cases hh : historyAt s.m_jobHistory i <;> rfl
  · rfl

/-- With nothing to read outside the recorded range, the loop is `finishJobLoop`. -/
theorem finishJobLoopReading_nothingPastEnd (fuel : Nat) :
    ∀ (s : JobSystem) (i : Int) (ev : List Event),
      finishJobLoopReading nothingPastEnd fuel s i ev = finishJobLoop fuel s i ev := by
  induction fuel with
  | zero => intro s i ev; rfl
  | succ n ih =>
    intro s i ev
    unfold finishJobLoopReading finishJobLoop JobSystem.isJobCompleteReading
      JobSystem.isJobComplete
    rw [GetJobStatusReading_nothingPastEnd]
    simp only [ih]

theorem FinishJobReading_nothingPastEnd (s : JobSystem) (i : Int) :
    s.FinishJobReading nothingPastEnd i = s.FinishJob i :=
  finishJobLoopReading_nothingPastEnd 2 s i []

/-- Inside the recorded range, and for an empty table, the status is read from the
table whatever lies behind it. -/
theorem GetJobStatusReading_ok_iff {s : JobSystem} {pastEnd : Int → Option JobStatus} {i : Int}
    {st : JobStatus} :
    s.GetJobStatusReading pastEnd i = .ok st ↔
      (castInt s.m_jobHistory.length = 0 ∧ st = .JOB_STATUS_NEVER_SEEN) ∨
      (castInt s.m_jobHistory.length ≠ 0 ∧
        ((∃ e, historyAt s.m_jobHistory i = .ok e ∧ e.m_jobStatus = st) ∨
          ((i < 0 ∨ (s.m_jobHistory.length : Int) ≤ i) ∧ pastEnd i = some st))) := by
  unfold JobSystem.GetJobStatusReading
  by_cases hc : castInt s.m_jobHistory.length = 0
  · simp only [hc, ne_eq, not_true_eq_false, if_false, Except.ok.injEq, true_and, false_and,
      or_false]
    exact eq_comm
  · rw [if_pos hc]
    cases hh : historyAt s.m_jobHistory i with
    | ok e =>
      have hlt := historyAt_ok_lt hh
      simp only [Except.ok.injEq, hc, false_and, ne_eq, not_false_eq_true, true_and,
        false_or, exists_eq_left']
      constructor
      · intro h
        exact Or.inl h
      · rintro (h | ⟨h, _⟩)
        · exact h
        · omega
    | error f =>
      have hout : i < 0 ∨ (s.m_jobHistory.length : Int) ≤ i := by
        by_contra hcon
        obtain ⟨e, he⟩ := @historyAt_of_lt s.m_jobHistory i (by omega) (by omega)
        rw [hh] at he
        cases he
      cases hp : pastEnd i with
      | none => simp [hc]
      | some st' => simp [hc, hout]

theorem isJobCompleteReading_of_status {s : JobSystem} {pastEnd : Int → Option JobStatus}
    {i : Int} {st : JobStatus} (h : s.GetJobStatusReading pastEnd i = .ok st) :
    s.isJobCompleteReading pastEnd i = .ok (decide (st = .JOB_STATUS_COMPLETED)) := by
  unfold JobSystem.isJobCompleteReading
  rw [h]

theorem finishJobLoopReading_completed {s : JobSystem} {pastEnd : Int → Option JobStatus}
    {i : Int} (h : s.GetJobStatusReading pastEnd i = .ok .JOB_STATUS_COMPLETED) (n : Nat)
    (ev : List Event) :
    finishJobLoopReading pastEnd (n + 1) s i ev = .ok (s, ev) := by
  unfold finishJobLoopReading
  rw [isJobCompleteReading_of_status h]
  rfl

/-- An id whose status reads NEVER_SEEN or RETIRED takes the early return of
lines 143-147, wherever the status was read. -/
theorem finishJobLoopReading_no_such_job {s : JobSystem} {pastEnd : Int → Option JobStatus}
    {i : Int} {st : JobStatus} (h : s.GetJobStatusReading pastEnd i = .ok st)
    (hst : st = .JOB_STATUS_NEVER_SEEN ∨ st = .JOB_STATUS_RETIRED) (n : Nat) (ev : List Event) :
    finishJobLoopReading pastEnd (n + 1) s i ev = .ok (s, ev ++ [.errorNoSuchJob i]) := by
  unfold finishJobLoopReading
  rw [isJobCompleteReading_of_status h]
  have hd : decide (st = .JOB_STATUS_COMPLETED) = false := by
    rcases hst with rfl | rfl <;> rfl
  rw [hd]
  simp only [h]
  rw [if_pos hst]

theorem finishJobLoopReading_pending {s : JobSystem} {pastEnd : Int → Option JobStatus}
    {i : Int} {st : JobStatus} (hg : s.GetJobStatusReading pastEnd i = .ok st)
    (hc : st ≠ .JOB_STATUS_COMPLETED)
    (hst : ¬ (st = .JOB_STATUS_NEVER_SEEN ∨ st = .JOB_STATUS_RETIRED)) (m : Nat)
    (ev : List Event) :
    finishJobLoopReading pastEnd (m + 1) s i ev =
      match extractFirst (fun c : Job => decide (c.m_jobID = i)) s.m_jobsCompleted with
      | none => .error (.nullDeref, ev ++ [.errorNotInCompletedList i])
      | some (c, rest) =>
        match setJobStatus s.m_jobHistory c.m_jobID .JOB_STATUS_RETIRED with
        | .error f => .error (f, ev ++ [.jobCompleteCallback c])
        | .ok h =>
          finishJobLoopReading pastEnd m { s with m_jobsCompleted := rest, m_jobHistory := h } i
            (ev ++ [.jobCompleteCallback c, .deleteJob c]) := by
  have hd : decide (st = .JOB_STATUS_COMPLETED) = false := by simpa using hc
  conv_lhs => unfold finishJobLoopReading
  rw [isJobCompleteReading_of_status hg, hd]
  simp only [hg]
  rw [if_neg hst]

theorem finishJobLoopReading_of_status_error {s : JobSystem}
    {pastEnd : Int → Option JobStatus} {i : Int} {f : Fault}
    (hg : s.GetJobStatusReading pastEnd i = .error f) (m : Nat) (ev : List Event) :
    finishJobLoopReading pastEnd (m + 1) s i ev = .error (.outOfBounds, ev) := by
  have hf : f = .outOfBounds := by
    unfold JobSystem.GetJobStatusReading at hg
    split at hg
    · cases hh : historyAt s.m_jobHistory i with
      | ok e => rw [hh] at hg; cases hg
      | error f' =>
        rw [hh] at hg
        cases hp : pastEnd i with
        | some st => rw [hp] at hg; cases hg
        | none =>
          rw [hp] at hg
          simp only [Except.error.injEq] at hg
          rw [← hg, historyAt_error hh]
    · cases hg
  subst hf
  unfold finishJobLoopReading JobSystem.isJobCompleteReading
  simp only [hg]

/-- The loop never needs a third evaluation of its condition, whatever is read
outside the recorded range: more fuel than two gives the result of two, which is
not `fuelExhausted`. -/
theorem finishJobLoopReading_fuel (pastEnd : Int → Option JobStatus) (n : Nat) (s : JobSystem)
    (i : Int) (ev : List Event) :
    finishJobLoopReading pastEnd (n + 2) s i ev = finishJobLoopReading pastEnd 2 s i ev ∧
      ∀ ev', finishJobLoopReading pastEnd 2 s i ev ≠ .error (.fuelExhausted, ev') := by
  cases hg : s.GetJobStatusReading pastEnd i with
  | error f =>
    rw [finishJobLoopReading_of_status_error hg, finishJobLoopReading_of_status_error hg]
    exact ⟨rfl, fun ev' h => by cases h⟩
  | ok st =>
    by_cases hc : st = .JOB_STATUS_COMPLETED
    · subst hc
      rw [finishJobLoopReading_completed hg, finishJobLoopReading_completed hg]
      exact ⟨rfl, fun ev' h => by cases h⟩
    by_cases hst : st = .JOB_STATUS_NEVER_SEEN ∨ st = .JOB_STATUS_RETIRED
    · rw [finishJobLoopReading_no_such_job hg hst, finishJobLoopReading_no_such_job hg hst]
      exact ⟨rfl, fun ev' h => by cases h⟩
    rw [finishJobLoopReading_pending hg hc hst, finishJobLoopReading_pending hg hc hst]
    cases hx : extractFirst (fun c : Job => decide (c.m_jobID = i)) s.m_jobsCompleted with
    | none =>
      dsimp only
      exact ⟨rfl, fun ev' h => by cases h⟩
    | some cr =>
      obtain ⟨c, rest⟩ := cr
      obtain ⟨pre, post, _, _, hci, _⟩ := (extractFirst_some_iff _ _ _ _).mp hx
      have hci : c.m_jobID = i := by simpa using hci
      dsimp only
      cases hs : setJobStatus s.m_jobHistory c.m_jobID .JOB_STATUS_RETIRED with
      | error f =>
        have := (setJobStatus_error hs).1
        subst this
        dsimp only
        exact ⟨rfl, fun ev' h => by cases h⟩
      | ok h =>
        have hlen : castInt s.m_jobHistory.length ≠ 0 := by
          rcases GetJobStatusReading_ok_iff.mp hg with ⟨_, h1⟩ | ⟨h1, _⟩
          · exact absurd (Or.inl h1) hst
          · exact h1
        have hret : JobSystem.GetJobStatusReading
            { s with m_jobsCompleted := rest, m_jobHistory := h } pastEnd i =
              .ok .JOB_STATUS_RETIRED := by
          rw [GetJobStatusReading_ok_iff]
          right
          rw [hci] at hs
          obtain ⟨e, _, he'⟩ := historyAt_setJobStatus_same hs
          exact ⟨by simpa [setJobStatus_length hs] using hlen, Or.inl ⟨_, he', rfl⟩⟩
        dsimp only
        rw [finishJobLoopReading_no_such_job hret (Or.inr rfl),
          finishJobLoopReading_no_such_job hret (Or.inr rfl)]
        exact ⟨rfl, fun ev' h => by cases h⟩

/-- C8: for every state and every id whose status, as line 108 reads it, is
NEVER_SEEN or RETIRED, `FinishJob(id)` returns at its first check with the state
unchanged (queued, running, completed and history alike) and one event, the
error message of line 145: no callback is invoked and no job is destroyed.  The
status is read from the table for an id inside the recorded range, is NEVER_SEEN
for an empty table, and for an id outside the recorded range of a non-empty
table is what the storage behind the table yields (`pastEnd`): the statement is
for every such outcome.  The result does not depend on the bound on the loop,
and when nothing can be read behind the table it is the result of `FinishJob`
as embedded with a faulting read. -/
theorem FinishJob_never_seen_or_retired (s : JobSystem) (pastEnd : Int → Option JobStatus)
    (jobID : Int)
    (h : s.GetJobStatusReading pastEnd jobID = .ok .JOB_STATUS_NEVER_SEEN ∨
      s.GetJobStatusReading pastEnd jobID = .ok .JOB_STATUS_RETIRED) :
    s.FinishJobReading pastEnd jobID = .ok (s, [.errorNoSuchJob jobID]) ∧
      (∀ fuel, finishJobLoopReading pastEnd (fuel + 1) s jobID [] =
        .ok (s, [.errorNoSuchJob jobID])) ∧
      ((∀ i, pastEnd i = none) → s.FinishJob jobID = .ok (s, [.errorNoSuchJob jobID])) := by
  have hall : ∀ fuel, finishJobLoopReading pastEnd (fuel + 1) s jobID [] =
      .ok (s, [.errorNoSuchJob jobID]) := by
    intro fuel
    rcases h with h | h
    · exact finishJobLoopReading_no_such_job h (Or.inl rfl) fuel []
    · exact finishJobLoopReading_no_such_job h (Or.inr rfl) fuel []
  refine ⟨hall 1, hall, fun hnone => ?_⟩
  have hp : pastEnd = nothingPastEnd := funext hnone
  subst hp
  rw [← FinishJobReading_nothingPastEnd]
  exact hall 1

/-- C8 at five inputs.  After one submission, ids 7 and -1 were never submitted and
lie outside the one-entry table, and so does id 1 while `job0` is running; the
storage behind the table reading NEVER_SEEN, `FinishJob(7)`, `FinishJob(-1)` and
`FinishJob(1)` return with the error message and the state as it was.  After
`job0` was submitted, claimed, completed and reaped its status is RETIRED, read
from the table, and `FinishJob(0)` returns in the same way; so does
`FinishJob(0)` in the empty system. -/
theorem FinishJob_never_seen_or_retired_witness :
    oneQueuedJob.FinishJobReading neverSeenPastEnd 7 =
        .ok (oneQueuedJob, [.errorNoSuchJob 7]) ∧
      oneQueuedJob.FinishJobReading neverSeenPastEnd (-1) =
        .ok (oneQueuedJob, [.errorNoSuchJob (-1)]) ∧
      oneRunningJob.FinishJobReading neverSeenPastEnd 1 =
        .ok (oneRunningJob, [.errorNoSuchJob 1]) ∧
      emptySystem.runOps retireJob0 = some oneRetiredJob ∧
      oneRetiredJob.FinishJob 0 = .ok (oneRetiredJob, [.errorNoSuchJob 0]) ∧
      emptySystem.FinishJob 0 = .ok (emptySystem, [.errorNoSuchJob 0]) :=
  ⟨(FinishJob_never_seen_or_retired oneQueuedJob neverSeenPastEnd 7 (Or.inl (by decide))).1,
   (FinishJob_never_seen_or_retired oneQueuedJob neverSeenPastEnd (-1) (Or.inl (by decide))).1,
   (FinishJob_never_seen_or_retired oneRunningJob neverSeenPastEnd 1 (Or.inl (by decide))).1,
   by decide,
   (FinishJob_never_seen_or_retired oneRetiredJob nothingPastEnd 0 (Or.inr (by decide))).2.2
     (fun _ => rfl),
   (FinishJob_never_seen_or_retired emptySystem nothingPastEnd 0 (Or.inl (by decide))).2.2
     (fun _ => rfl)⟩
